import Mathlib

/-!
Verification of the coordinate-mapping core of the `bio-utils` repository
(`utils.py`, `alignment.py`, `fast5.py`), shallowly embedded in Lean 4.

Conventions of the embedding:
* Python unbounded integers become `Nat`/`Int`; the single machine-width
  effect in the code (storage into a `dtype=np.uint32` array in
  `reference_to_query`) is modelled by reducing the stored value modulo
  `2 ^ 32` at the moment of the write, matching the silent wrap-around of
  the numpy generation the repository targets.
* numpy's `np.empty` allocation is modelled as a list of `Option Nat`
  initialised to `none` ("uninitialised"); a write stores `some v`.
  An out-of-bounds element assignment raises in numpy, modelled as the
  `indexError` case of an `Except`.
* Python `re.finditer` on the (literal, case-insensitive) motif patterns
  is modelled by `findIter`: scan candidate start positions left to right
  and, after a match, resume at the match end (non-overlapping), which is
  exactly `re`'s behaviour for literal patterns; a zero-width match
  advances the scan by one position, as in `re`.
* floating-point signal values are modelled by `F`: a rational tagged as
  finite, or one of the non-finite IEEE values NaN / +inf / -inf, with
  the arithmetic cases used by `normalize_mad` spelled out.
-/

/-! ### Motif Indexer (`utils.build_reference_idx`) -/

/-- Case-insensitive literal match test: does the motif `pat` occur in `s`
starting at position `i`?  (`re.finditer(motif, seq, re.I)` candidate test.) -/
def matchesAt (pat s : List Char) (i : Nat) : Bool :=
  ((s.drop i).take pat.length).map Char.toLower == pat.map Char.toLower

/-- One step bound of the scan: a match of length `n` advances the scan by
`n`, a zero-width match advances it by `1`, as `re.finditer` does. -/
def scanStep (pat : List Char) : Nat := max pat.length 1

/-- Fuelled left-to-right scan of `re.finditer` for a literal pattern:
test every candidate position; on a match record it and resume at the
match end (non-overlapping).  `fuel` only ensures termination; it is
always called with enough fuel to finish the scan. -/
def scanAux (pat s : List Char) : Nat → Nat → List Nat
  | 0, _ => []
  | fuel + 1, i =>
    if pat.length + i ≤ s.length then
      if matchesAt pat s i then i :: scanAux pat s fuel (i + scanStep pat)
      else scanAux pat s fuel (i + 1)
    else []

/-- All match start positions of `re.finditer(pat, s, re.I)` for a literal
pattern `pat`, in ascending order. -/
def findIter (pat s : List Char) : List Nat :=
  scanAux pat s (s.length + 2) 0

/-- Watson-Crick complement of one base, upper or lower case; characters
outside the plain nucleotide alphabet are left unchanged (the repository's
motifs and the claims only involve plain bases). -/
def complementChar (c : Char) : Char :=
  if c = 'A' then 'T' else if c = 'T' then 'A'
  else if c = 'C' then 'G' else if c = 'G' then 'C'
  else if c = 'a' then 't' else if c = 't' then 'a'
  else if c = 'c' then 'g' else if c = 'g' then 'c'
  else c

/-- Biopython `Seq.reverse_complement`: complement every base and reverse. -/
def revcomp (s : List Char) : List Char :=
  (s.map complementChar).reverse

/-- The per-contig body of `build_reference_idx`: the forward set
`{m.start() + rel_idx}` over forward matches and the reverse set
`{L - (m.start() + rel_idx) - 1}` over matches in the reverse complement.
Positions are integers, as in Python (`rel_idx` may be any int). -/
def processRecord (motif : List Char) (rel : Int) (seq : List Char) :
    Finset Int × Finset Int :=
  let fwd := ((findIter motif seq).map (fun (i : Nat) => (i : Int) + rel)).toFinset
  let len : Int := seq.length
  let rev := ((findIter motif (revcomp seq)).map
      (fun (i : Nat) => len - ((i : Int) + rel) - 1)).toFinset
  (fwd, rev)

/-- Python `dict` assignment `positions[contig] = v` on an insertion-ordered
association list: update in place if the key exists, else append. -/
def dictInsert (m : List (String × α)) (k : String) (v : α) :
    List (String × α) :=
  if m.any (fun p => decide (p.1 = k)) then
    m.map (fun p => if p.1 = k then (k, v) else p)
  else m ++ [(k, v)]

/-- Association-list access, mirroring Python `dict` lookup on the
insertion-ordered model. -/
def alookup : List (String × α) → String → Option α
  | [], _ => none
  | (k, v) :: m, n => if k = n then some v else alookup m n

/-- `utils.build_reference_idx`: iterate over the decoded FASTA records
(name, sequence) and store, per contig, the pair of forward / reverse
position sets. -/
def build_reference_idx (records : List (String × List Char))
    (motif : List Char) (rel : Int) : List (String × (Finset Int × Finset Int)) :=
  records.foldl (fun m r => dictInsert m r.1 (processRecord motif rel r.2)) []

/-! ### Move-Table Mapper (`fast5.sequence_to_signal`) -/

/-- numpy `nonzero` for a one-dimensional array, offset by the index `i` of
the first element: ascending indices of the non-zero entries. -/
def npNonzero : List Nat → Nat → List Nat
  | [], _ => []
  | x :: xs, i => if x ≠ 0 then i :: npNonzero xs (i + 1) else npNonzero xs (i + 1)

/-- `fast5.sequence_to_signal`: append a trailing `1` to the move table and
map every non-zero block index to `blockIndex * block_stride + raw_start_idx`.
The code performs no validation of `raw_start_idx` or `block_stride`. -/
def sequence_to_signal (move_table : List Nat) (raw_start_idx : Int)
    (block_stride : Int) : List Int :=
  let mt := move_table ++ [1]
  (npNonzero mt 0).map (fun (i : Nat) => (i : Int) * block_stride + raw_start_idx)

/-! ### Signal Normalizer (`fast5.normalize_mad`) -/

/-- An IEEE double as produced by the numpy pipeline of `normalize_mad`:
either a finite value (held exactly as a rational) or one of the
non-finite values NaN, +inf, -inf. -/
inductive F where
  | fin : Rat → F
  | nan : F
  | pinf : F
  | ninf : F
deriving DecidableEq

/-- `|a|` on rationals, spelled so that it evaluates by kernel reduction. -/
def qabs (a : Rat) : Rat := if a < 0 then -a else a

/-- Insert into a sorted list (ascending), the helper of `sortQ`. -/
def insort (x : Rat) : List Rat → List Rat
  | [] => [x]
  | y :: ys => if x ≤ y then x :: y :: ys else y :: insort x ys

/-- Insertion sort, modelling the sort inside `np.median`. -/
def sortQ : List Rat → List Rat
  | [] => []
  | x :: xs => insort x (sortQ xs)

/-- Median of a non-empty list of rationals: middle element of the sorted
list for odd length, average of the two middle elements for even length
(`np.median`'s definition); junk value `0` on the empty list (`npMedian`
handles that case separately). -/
def medQ (xs : List Rat) : Rat :=
  let s := sortQ xs
  let n := s.length
  if n % 2 = 1 then s.getD (n / 2) 0
  else if n = 0 then 0
  else (s.getD (n / 2 - 1) 0 + s.getD (n / 2) 0) / 2

/-- `np.median` on a finite-valued array: NaN on the empty array
(numpy emits a warning and returns NaN, it does not raise). -/
def npMedian (xs : List Rat) : F :=
  if xs.isEmpty then F.nan else F.fin (medQ xs)

/-- Whether an `F` value is finite. -/
def F.isFin : F → Bool
  | F.fin _ => true
  | _ => false

/-- The rational carried by a finite `F` value (junk `0` otherwise). -/
def F.toQ : F → Rat
  | F.fin q => q
  | _ => 0

/-- `np.median` on an array of possibly non-finite doubles: NaN for the
empty array and for any array containing NaN.  (In `normalize_mad` the
argument is always all-finite or empty, so the infinite cases reduce to
the NaN answer as well without affecting any claim.) -/
def npMedianF (xs : List F) : F :=
  if xs.isEmpty then F.nan
  else if xs.all F.isFin then F.fin (medQ (xs.map F.toQ))
  else F.nan

/-- IEEE subtraction on the modelled doubles. -/
def fsub : F → F → F
  | F.fin a, F.fin b => F.fin (a - b)
  | F.fin _, F.pinf => F.ninf
  | F.fin _, F.ninf => F.pinf
  | F.pinf, F.fin _ => F.pinf
  | F.ninf, F.fin _ => F.ninf
  | F.pinf, F.ninf => F.pinf
  | F.ninf, F.pinf => F.ninf
  | _, _ => F.nan

/-- IEEE absolute value on the modelled doubles. -/
def fabs : F → F
  | F.fin a => F.fin (qabs a)
  | F.nan => F.nan
  | F.pinf => F.pinf
  | F.ninf => F.pinf

/-- IEEE multiplication on the modelled doubles (`0 * inf = NaN`). -/
def fmul : F → F → F
  | F.fin a, F.fin b => F.fin (a * b)
  | F.fin a, F.pinf => if a = 0 then F.nan else if 0 < a then F.pinf else F.ninf
  | F.fin a, F.ninf => if a = 0 then F.nan else if 0 < a then F.ninf else F.pinf
  | F.pinf, F.fin b => if b = 0 then F.nan else if 0 < b then F.pinf else F.ninf
  | F.ninf, F.fin b => if b = 0 then F.nan else if 0 < b then F.ninf else F.pinf
  | F.pinf, F.pinf => F.pinf
  | F.ninf, F.ninf => F.pinf
  | F.pinf, F.ninf => F.ninf
  | F.ninf, F.pinf => F.ninf
  | _, _ => F.nan

/-- IEEE division on the modelled doubles.  Rationals have no signed zero;
a zero divisor is treated as `+0`, which is what occurs in the code (the
divisor is `scale_factor * MAD` with `MAD ≥ 0`): `0/0 = NaN`,
`x/0 = ±inf` by the sign of `x`. -/
def fdiv : F → F → F
  | F.fin a, F.fin b =>
    if b = 0 then (if a = 0 then F.nan else if 0 < a then F.pinf else F.ninf)
    else F.fin (a / b)
  | F.fin _, F.pinf => F.fin 0
  | F.fin _, F.ninf => F.fin 0
  | F.pinf, F.fin b => if b < 0 then F.ninf else F.pinf
  | F.ninf, F.fin b => if b < 0 then F.pinf else F.ninf
  | _, _ => F.nan

/-- `fast5.normalize_mad`: subtract the median, then divide by
`scale_factor * MAD` where `MAD` is the median absolute deviation.
`scale_factor = none` (Python `None`) is replaced by `1`; the Python
default argument is `1.4826`.  The code performs no validation: there is
no empty-input or zero-MAD check, division by zero silently produces
non-finite values (numpy emits only a warning). -/
def normalize_mad (signal : List Rat) (scale_factor : Option Rat) : List F :=
  let sf : Rat := scale_factor.getD 1
  let med : F := npMedian signal
  let shifted : List F := signal.map (fun x => fsub (F.fin x) med)
  let mad : F := npMedianF (shifted.map fabs)
  shifted.map (fun v => fdiv v (fmul (F.fin sf) mad))

/-- The MAD of a signal as a rational: median of absolute deviations from
the median (the specification-level value that `normalize_mad` computes
for a non-empty signal). -/
def madQ (signal : List Rat) : Rat :=
  medQ (signal.map (fun x => qabs (x - medQ signal)))

/-! ### FASTQ parsing (`fast5.parse_fastq`) -/

/-- Python `str.split('\n')` on a character list. -/
def splitLines : List Char → List (List Char)
  | [] => [[]]
  | c :: cs =>
    if c = '\n' then [] :: splitLines cs
    else
      match splitLines cs with
      | [] => [[c]]
      | l :: ls => (c :: l) :: ls

/-- Is `c` whitespace for Python `str.strip()`?  (The characters that can
occur in a FASTQ string.) -/
def isWs (c : Char) : Bool := c = ' ' || c = '\t' || c = '\n' || c = '\r'

/-- Python `str.strip()`: drop leading and trailing whitespace. -/
def stripWs (s : List Char) : List Char :=
  (((s.dropWhile isWs).reverse).dropWhile isWs).reverse

/-- The value `np.ndarray(shape_list, dtype=np.uint8)` evaluates to: a new
UNINITIALISED array whose SHAPE is the given list — `np.ndarray`'s first
positional parameter is the shape, not the data.  Only the shape is
determined; the element contents are arbitrary memory. -/
structure NpNdarray where
  shape : List Nat
deriving DecidableEq

/-- `fast5.parse_fastq`: strip the string, split on newlines, take line 1
as the sequence, and build the qualities with
`np.ndarray([ord(c) - 33 for c in data[3]], dtype=np.uint8)` — which
passes the decoded quality values as the SHAPE of an uninitialised array
(the `np.ndarray`/`np.array` confusion). -/
def parse_fastq (fastq : List Char) : List Char × NpNdarray :=
  let data := splitLines (stripWs fastq)
  let sequence := data.getD 1 []
  let qualities : NpNdarray := ⟨(data.getD 3 []).map (fun c => c.toNat - 33)⟩
  (sequence, qualities)

/-! ### CIGAR Mapper (`alignment.reference_to_query`)

The numpy buffer `np.empty((ref_len + 1,), dtype=np.uint32)` is modelled
as a `List (Option Nat)` of `none`s ("uninitialised"); an element
assignment stores `some (value % 2 ^ 32)` (the uint32 wrap), and an
assignment beyond the end of the buffer raises, modelled as
`R2QError.indexError`.  The `raise TypeError('Invalid cigar operation.')`
branch is `R2QError.unsupportedOp`. -/

/-- The error outcomes of `reference_to_query`: the explicit
`TypeError` for an unknown CIGAR operation code, and numpy's
`IndexError` for a write past the end of the table. -/
inductive R2QError where
  | unsupportedOp : R2QError
  | indexError : R2QError
deriving DecidableEq

/-- The uint32 modulus. -/
def u32 : Nat := 4294967296

/-- `arr[i] = v` on the modelled uint32 buffer: store `v % 2 ^ 32` at
index `i`, or fail with `indexError` when `i` is out of bounds. -/
def setAt : List (Option Nat) → Nat → Nat → Except R2QError (List (Option Nat))
  | [], _, _ => .error .indexError
  | _ :: xs, 0, v => .ok (some (v % u32) :: xs)
  | x :: xs, n + 1, v =>
    match setAt xs n v with
    | .ok ys => .ok (x :: ys)
    | .error e => .error e

/-- The match/mismatch inner loop:
`for i in range(l): ref_to_query[rpos + i] = qpos + i`. -/
def writeRun : List (Option Nat) → Nat → Nat → Nat → Except R2QError (List (Option Nat))
  | a, _, _, 0 => .ok a
  | a, rpos, qpos, l + 1 =>
    match setAt a rpos qpos with
    | .ok a1 => writeRun a1 (rpos + 1) (qpos + 1) l
    | .error e => .error e

/-- The deletion inner loop:
`for i in range(l): ref_to_query[rpos + i] = qpos`. -/
def writeDelRun : List (Option Nat) → Nat → Nat → Nat → Except R2QError (List (Option Nat))
  | a, _, _, 0 => .ok a
  | a, rpos, qpos, l + 1 =>
    match setAt a rpos qpos with
    | .ok a1 => writeDelRun a1 (rpos + 1) qpos l
    | .error e => .error e

/-- The main CIGAR loop of `reference_to_query`: one `(length, op)` pair at
a time, with the Python op-code tests in source order
(`op == 0 or op == 7 or op == 8`, `elif op == 1`, `elif op == 2`,
`else: raise`).  Returns the final `(rpos, qpos, buffer)`. -/
def r2qGo : List (Nat × Nat) → Nat → Nat → List (Option Nat) →
    Except R2QError (Nat × Nat × List (Option Nat))
  | [], rpos, qpos, a => .ok (rpos, qpos, a)
  | (l, op) :: rest, rpos, qpos, a =>
    if op = 0 ∨ op = 7 ∨ op = 8 then
      match writeRun a rpos qpos l with
      | .ok a1 => r2qGo rest (rpos + l) (qpos + l) a1
      | .error e => .error e
    else if op = 1 then r2qGo rest rpos (qpos + l) a
    else if op = 2 then
      match writeDelRun a rpos qpos l with
      | .ok a1 => r2qGo rest (rpos + l) qpos a1
      | .error e => .error e
    else .error .unsupportedOp

/-- The CIGAR operation list actually iterated: the alignment's CIGAR for
the forward strand (`strand == 1`), its reverse otherwise. -/
def effCigar (strand : Int) (cigar : List (Nat × Nat)) : List (Nat × Nat) :=
  if strand = 1 then cigar else cigar.reverse

/-- `alignment.reference_to_query`: allocate `ref_len + 1` uninitialised
slots, run the CIGAR loop from `rpos = 0, qpos = q_st`, then write the
exclusive-end sentinel `ref_to_query[rpos] = qpos` and return the buffer. -/
def reference_to_query (q_st : Nat) (strand : Int) (r_st r_en : Nat)
    (cigar : List (Nat × Nat)) : Except R2QError (List (Option Nat)) :=
  let ref_len := r_en - r_st
  match r2qGo (effCigar strand cigar) 0 q_st (List.replicate (ref_len + 1) none) with
  | .ok (rpos, qpos, a) => setAt a rpos qpos
  | .error e => .error e

/-! Specification-side functions for the CIGAR mapper, used to state the
invariants of the produced table. -/

/-- Every operation code is one of the supported
match/mismatch/insertion/deletion codes `{0, 7, 8, 1, 2}`. -/
def opsValid (cigar : List (Nat × Nat)) : Prop :=
  ∀ p ∈ cigar, p.2 = 0 ∨ p.2 = 1 ∨ p.2 = 2 ∨ p.2 = 7 ∨ p.2 = 8

instance (cigar : List (Nat × Nat)) : Decidable (opsValid cigar) := by
  unfold opsValid; infer_instance

/-- Total reference advance of a CIGAR: the summed lengths of its
match/mismatch and deletion operations. -/
def refAdvance : List (Nat × Nat) → Nat
  | [] => 0
  | (l, op) :: rest =>
    (if op = 0 ∨ op = 7 ∨ op = 8 ∨ op = 2 then l else 0) + refAdvance rest

/-- Total query advance of a CIGAR: the summed lengths of its
match/mismatch and insertion operations. -/
def qAdvance : List (Nat × Nat) → Nat
  | [] => 0
  | (l, op) :: rest =>
    (if op = 0 ∨ op = 7 ∨ op = 8 ∨ op = 1 then l else 0) + qAdvance rest

/-- The query coordinates written for the reference positions covered by a
valid CIGAR, starting from query cursor `q` (without the trailing
sentinel): a match/mismatch of length `l` contributes
`q, q+1, …, q+l-1`, an insertion contributes nothing but advances the
cursor, a deletion of length `l` contributes `l` copies of the frozen
cursor. -/
def bodySpec (q : Nat) : List (Nat × Nat) → List Nat
  | [] => []
  | (l, op) :: rest =>
    if op = 0 ∨ op = 7 ∨ op = 8 then
      (List.range l).map (fun i => q + i) ++ bodySpec (q + l) rest
    else if op = 1 then bodySpec (q + l) rest
    else if op = 2 then List.replicate l q ++ bodySpec q rest
    else []

/-- The full table a valid CIGAR produces: the per-position query
coordinates followed by the exclusive-end sentinel. -/
def tableSpec (q : Nat) (cigar : List (Nat × Nat)) : List Nat :=
  bodySpec q cigar ++ [q + qAdvance cigar]

/-- Per reference position, the query advance of its own operation:
`1` for a match/mismatch position, `0` for a deletion position. -/
def posKinds : List (Nat × Nat) → List Nat
  | [] => []
  | (l, op) :: rest =>
    if op = 0 ∨ op = 7 ∨ op = 8 then List.replicate l 1 ++ posKinds rest
    else if op = 2 then List.replicate l 0 ++ posKinds rest
    else posKinds rest

/-- Per reference position, the total length of the insertions that fall
between this position's table entry and the next table entry; the second
component is the total length of insertions preceding the first covered
position (they shift the first entry's value, not any delta). -/
def insFollows : List (Nat × Nat) → List Nat × Nat
  | [] => ([], 0)
  | (l, op) :: rest =>
    let p := insFollows rest
    if op = 0 ∨ op = 7 ∨ op = 8 ∨ op = 2 then
      match l with
      | 0 => p
      | k + 1 => (List.replicate k 0 ++ p.2 :: p.1, 0)
    else if op = 1 then (p.1, l + p.2)
    else ([], 0)

/-- Consecutive differences of a list of naturals. -/
def diffs : List Nat → List Nat
  | [] => []
  | [_] => []
  | a :: b :: t => (b - a) :: diffs (b :: t)

/-! ## Lemmas and claim theorems -/

/-! ### Move-Table Mapper lemmas -/

theorem npNonzero_eq_filter (xs : List Nat) (i : Nat) :
    npNonzero xs i
      = ((List.range xs.length).filter (fun j => xs.getD j 0 != 0)).map (· + i) := by
  induction xs generalizing i with
  | nil => simp [npNonzero]
  | cons x xs ih =>
    have hrange : List.range (xs.length + 1) = 0 :: (List.range xs.length).map (· + 1) := by
      rw [List.range_succ_eq_map]
    have hfm : List.filter (fun j => (x :: xs).getD j 0 != 0)
          ((List.range xs.length).map (· + 1))
        = (List.filter (fun j => xs.getD j 0 != 0) (List.range xs.length)).map (· + 1) := by
      rw [List.filter_map]
      congr 1
    have hmm : ((List.filter (fun j => xs.getD j 0 != 0) (List.range xs.length)).map
          (· + 1)).map (· + i)
        = (List.filter (fun j => xs.getD j 0 != 0) (List.range xs.length)).map
            (· + (i + 1)) := by
      rw [List.map_map]
      congr 1
      funext a
      show a + 1 + i = a + (i + 1)
      omega
    rw [List.length_cons, hrange, List.filter_cons]
    by_cases hx : x = 0
    · have hp0 : ((x :: xs).getD 0 0 != 0) = false := by simp [hx]
      rw [hp0]
      simp only [Bool.false_eq_true, if_false]
      rw [hfm, hmm]
      simpa [npNonzero, hx] using ih (i + 1)
    · have hp0 : ((x :: xs).getD 0 0 != 0) = true := by simp [hx]
      rw [hp0]
      simp only [if_true]
      rw [List.map_cons, hfm, hmm]
      have hl : npNonzero (x :: xs) i = i :: npNonzero xs (i + 1) := by
        simp [npNonzero, hx]
      rw [hl, ih (i + 1), Nat.zero_add]

theorem npNonzero_le (xs : List Nat) (i j : Nat) (hj : j ∈ npNonzero xs i) : i ≤ j := by
  induction xs generalizing i with
  | nil => simp [npNonzero] at hj
  | cons x xs ih =>
    simp only [npNonzero] at hj
    by_cases hx : x = 0
    · simp only [hx, ne_eq, not_true_eq_false, if_false] at hj
      have := ih (i + 1) hj
      omega
    · simp only [ne_eq, hx, not_false_eq_true, if_true, List.mem_cons] at hj
      rcases hj with rfl | hj
      · exact Nat.le_refl _
      · have := ih (i + 1) hj
        omega

theorem npNonzero_chain (xs : List Nat) (i : Nat) :
    List.Chain' (· < ·) (npNonzero xs i) := by
  induction xs generalizing i with
  | nil => simp [npNonzero]
  | cons x xs ih =>
    simp only [npNonzero]
    by_cases hx : x = 0
    · simpa [hx] using ih (i + 1)
    · simp only [ne_eq, hx, not_false_eq_true, if_true]
      rw [List.chain'_cons']
      refine ⟨?_, ih (i + 1)⟩
      intro y hy
      have hmem : y ∈ npNonzero xs (i + 1) := List.mem_of_mem_head? hy
      have := npNonzero_le xs (i + 1) y hmem
      omega

theorem npNonzero_length (xs : List Nat) (i : Nat) :
    (npNonzero xs i).length = xs.countP (fun x => x != 0) := by
  induction xs generalizing i with
  | nil => simp [npNonzero]
  | cons x xs ih =>
    simp only [npNonzero, List.countP_cons]
    by_cases hx : x = 0
    · simp [hx, ih (i + 1)]
    · simp [hx, ih (i + 1)]

theorem getD_zero_or_one (l : List Nat) (h : ∀ x ∈ l, x = 0 ∨ x = 1) (j : Nat) :
    l.getD j 0 = 0 ∨ l.getD j 0 = 1 := by
  induction l generalizing j with
  | nil => left; simp
  | cons x xs ih =>
    cases j with
    | zero => simpa using h x (by simp)
    | succ k =>
      simp only [List.getD_cons_succ]
      exact ih (fun y hy => h y (by simp [hy])) k

/-- C4: `sequence_to_signal` returns, for each block index of the move
table extended with a synthetic trailing `1` whose flag is `1`, in
ascending order, the value `blockIndex * block_stride + raw_start_idx`;
the output length is the number of `1`-flags of the extended table; and
on move table `[0,1,0,0,1,1]` with stride `10` and start offset `5` the
output is `[15, 45, 55, 65]`. -/
theorem C4_sequence_to_signal_spec (mt : List Nat) (s d : Int)
    (h01 : ∀ x ∈ mt, x = 0 ∨ x = 1) (hd : 0 < d) :
    sequence_to_signal mt s d
      = ((List.range (mt.length + 1)).filter (fun j => (mt ++ [1]).getD j 0 == 1)).map
          (fun (j : Nat) => (j : Int) * d + s)
    ∧ (sequence_to_signal mt s d).length = (mt ++ [1]).count 1
    ∧ List.Chain' (· < ·) (sequence_to_signal mt s d)
    ∧ sequence_to_signal [0, 1, 0, 0, 1, 1] 5 10 = [15, 45, 55, 65] := by
  have h01e : ∀ x ∈ mt ++ [1], x = 0 ∨ x = 1 := by
    intro x hx
    rcases List.mem_append.1 hx with h | h
    · exact h01 x h
    · simp at h; right; exact h
  refine ⟨?_, ?_, ?_, by decide⟩
  · simp only [sequence_to_signal]
    rw [npNonzero_eq_filter]
    have hlen : (mt ++ [1]).length = mt.length + 1 := by simp
    rw [hlen, List.map_map]
    congr 1
    apply List.filter_congr
    intro j hj
    rcases getD_zero_or_one (mt ++ [1]) h01e j with h | h <;>
      simp only [List.getD_eq_getElem?_getD] at h <;> simp [h]
  · simp only [sequence_to_signal]
    rw [List.length_map, npNonzero_length]
    rw [List.count_eq_countP]
    apply List.countP_congr
    intro x hx
    rcases h01e x hx with h | h <;> simp [h, eq_comm]
  · simp only [sequence_to_signal]
    rw [List.chain'_map]
    apply List.Chain'.imp ?_ (npNonzero_chain (mt ++ [1]) 0)
    intro a b hab
    have : (a : Int) < b := by exact_mod_cast hab
    have hlt : (a : Int) * d < (b : Int) * d := by
      exact mul_lt_mul_of_pos_right this hd
    omega

/-- C4 witness: the theorem instantiated at the move table
`[0,1,0,0,1,1]`, start offset `5`, stride `10` of the specification's
worked example. -/
theorem C4_sequence_to_signal_spec_witness :
    (∀ x ∈ [0, 1, 0, 0, 1, 1], x = 0 ∨ x = 1) ∧ (0 : Int) < 10 ∧
    (sequence_to_signal [0, 1, 0, 0, 1, 1] 5 10
      = ((List.range ([0, 1, 0, 0, 1, 1].length + 1)).filter
          (fun j => ([0, 1, 0, 0, 1, 1] ++ [1]).getD j 0 == 1)).map
            (fun (j : Nat) => (j : Int) * 10 + 5)
    ∧ (sequence_to_signal [0, 1, 0, 0, 1, 1] 5 10).length
        = ([0, 1, 0, 0, 1, 1] ++ [1]).count 1
    ∧ List.Chain' (· < ·) (sequence_to_signal [0, 1, 0, 0, 1, 1] 5 10)
    ∧ sequence_to_signal [0, 1, 0, 0, 1, 1] 5 10 = [15, 45, 55, 65]) :=
  ⟨by decide, by decide, C4_sequence_to_signal_spec [0, 1, 0, 0, 1, 1] 5 10 (by decide) (by decide)⟩

/-- C7 counterexample: at block stride `0` (≤ 0) and raw start index `-5`
(negative), `sequence_to_signal` does not fail at all — the source
contains no parameter validation — it returns the computed values
`[-5, -5]` normally. -/
theorem C7_counterexample_no_validation :
    sequence_to_signal [1] (-5) 0 = [-5, -5] := by decide

/-- C7 amended: `sequence_to_signal` performs no validation of its
parameters; for every block stride (including values ≤ 0) and every raw
start index (including negative values) it returns, without error, the
value `blockIndex * block_stride + raw_start_idx` for each non-zero flag
of the extended move table. -/
theorem C7_amended_no_validation (mt : List Nat) (s d : Int) :
    sequence_to_signal mt s d
      = ((List.range (mt.length + 1)).filter (fun j => (mt ++ [1]).getD j 0 != 0)).map
          (fun (j : Nat) => (j : Int) * d + s) := by
  simp only [sequence_to_signal]
  rw [npNonzero_eq_filter]
  have hlen : (mt ++ [1]).length = mt.length + 1 := by simp
  rw [hlen, List.map_map]
  congr 1

/-- C9: the code slip in `parse_fastq`.  On the well-formed four-line
FASTQ string `"@r\nAC\n+\n#5"` the sequence is the second line `"AC"`,
but the qualities are built with `np.ndarray([ord(c) - 33 ...])`, whose
first positional argument is the SHAPE of a new uninitialised array —
so the decoded values `[2, 20]` become the array's shape (a 2×20 array
of arbitrary memory), not its elements, contradicting the claim (and the
function's own docstring) that element `i` equals `ord(line4[i]) - 33`. -/
theorem C9_parse_fastq_code_bug :
    parse_fastq ("@r\nAC\n+\n#5".toList)
      = ("AC".toList, NpNdarray.mk [2, 20]) := by decide

/-- C5 counterexample: on the constant signal `[7, 7, 7]` (MAD = 0),
`normalize_mad` raises no `DegenerateSignal` error — the source contains
no validation — it divides by zero and returns `[NaN, NaN, NaN]`
(called with the Python default scale factor `1.4826`). -/
theorem C5_counterexample_constant_signal :
    normalize_mad [7, 7, 7] (some (14826 / 10000)) = [F.nan, F.nan, F.nan] := by
  with_unfolding_all rfl

/-! ### Signal Normalizer lemmas -/

theorem npMedianF_map_fin (l : List Rat) (hne : l ≠ []) :
    npMedianF (l.map F.fin) = F.fin (medQ l) := by
  unfold npMedianF
  have h1 : (l.map F.fin).isEmpty = false := by
    cases l with
    | nil => exact absurd rfl hne
    | cons x xs => rfl
  rw [h1]
  have h2 : (l.map F.fin).all F.isFin = true := by
    rw [List.all_eq_true]
    intro x hx
    rw [List.mem_map] at hx
    obtain ⟨y, _, rfl⟩ := hx
    rfl
  rw [h2]
  simp only [Bool.false_eq_true, if_false, if_true, List.map_map]
  have h3 : l.map (F.toQ ∘ F.fin) = l := by
    rw [show F.toQ ∘ F.fin = id from rfl, List.map_id]
  rw [h3]

/-- The shape of `normalize_mad` on a non-empty signal: every sample is
shifted by the median and divided by `scale_factor * MAD`, in the
modelled IEEE arithmetic. -/
theorem normalize_mad_nonempty (signal : List Rat) (sf : Option Rat)
    (hne : signal ≠ []) :
    normalize_mad signal sf
      = signal.map (fun x =>
          fdiv (F.fin (x - medQ signal))
            (fmul (F.fin (sf.getD 1)) (F.fin (madQ signal)))) := by
  have h0 : signal.isEmpty = false := by
    cases signal with
    | nil => exact absurd rfl hne
    | cons x xs => rfl
  have hmed : npMedian signal = F.fin (medQ signal) := by
    unfold npMedian
    rw [h0]
    simp
  have hshift : signal.map (fun x => fsub (F.fin x) (F.fin (medQ signal)))
      = signal.map (fun x => F.fin (x - medQ signal)) := rfl
  have habs : (signal.map (fun x => F.fin (x - medQ signal))).map fabs
      = (signal.map (fun x => qabs (x - medQ signal))).map F.fin := by
    rw [List.map_map, List.map_map]
    rfl
  have habsne : signal.map (fun x => qabs (x - medQ signal)) ≠ [] := by
    cases signal with
    | nil => exact absurd rfl hne
    | cons x xs => simp
  simp only [normalize_mad, hmed, hshift, habs, npMedianF_map_fin _ habsne]
  rw [List.map_map]
  rfl

/-- C5 amended: `normalize_mad` performs no input validation: on an empty
signal it returns an empty array (no `EmptySignal` error), and on a
non-empty signal whose median absolute deviation is `0` it raises no
`DegenerateSignal` error but divides by zero, returning a full-length
array every element of which is non-finite (NaN or ±infinity). -/
theorem C5_amended_no_validation (signal : List Rat) (sf : Option Rat)
    (hne : signal ≠ []) (hmad : madQ signal = 0) :
    normalize_mad [] sf = []
    ∧ (normalize_mad signal sf).length = signal.length
    ∧ ∀ v ∈ normalize_mad signal sf, v = F.nan ∨ v = F.pinf ∨ v = F.ninf := by
  rw [normalize_mad_nonempty signal sf hne]
  refine ⟨rfl, by simp, ?_⟩
  intro v hv
  rw [List.mem_map] at hv
  obtain ⟨x, _, hx⟩ := hv
  subst hx
  rw [hmad]
  have hdenom : fmul (F.fin (sf.getD 1)) (F.fin 0) = F.fin 0 := by
    show F.fin (sf.getD 1 * 0) = F.fin 0
    rw [mul_zero]
  rw [hdenom]
  have hv : fdiv (F.fin (x - medQ signal)) (F.fin 0)
      = (if x - medQ signal = 0 then F.nan
         else if 0 < x - medQ signal then F.pinf else F.ninf) := by
    show (if (0 : Rat) = 0 then
        (if x - medQ signal = 0 then F.nan
         else if 0 < x - medQ signal then F.pinf else F.ninf)
      else F.fin ((x - medQ signal) / 0))
      = (if x - medQ signal = 0 then F.nan
         else if 0 < x - medQ signal then F.pinf else F.ninf)
    rw [if_pos rfl]
  rw [hv]
  by_cases h1 : x - medQ signal = 0
  · rw [if_pos h1]; exact Or.inl rfl
  · rw [if_neg h1]
    by_cases h2 : 0 < x - medQ signal
    · rw [if_pos h2]; exact Or.inr (Or.inl rfl)
    · rw [if_neg h2]; exact Or.inr (Or.inr rfl)

/-- C5 amended witness: the statement instantiated at the constant signal
`[7, 7, 7]` with the Python default scale factor. -/
theorem C5_amended_no_validation_witness :
    ([7, 7, 7] : List Rat) ≠ [] ∧ madQ [7, 7, 7] = 0 ∧
    (normalize_mad [] (some (14826 / 10000)) = []
    ∧ (normalize_mad [7, 7, 7] (some (14826 / 10000))).length = ([7, 7, 7] : List Rat).length
    ∧ ∀ v ∈ normalize_mad [7, 7, 7] (some (14826 / 10000)),
        v = F.nan ∨ v = F.pinf ∨ v = F.ninf) :=
  ⟨by simp, by with_unfolding_all rfl,
    C5_amended_no_validation [7, 7, 7] (some (14826 / 10000)) (by simp)
      (by with_unfolding_all rfl)⟩

/-- C6: for every non-empty signal with non-zero MAD and every scale
factor (the `none` sentinel meaning `1`, the Python default being
`1.4826`, and the resolved factor being non-zero so that the division is
by a non-zero number), `normalize_mad` returns a new sequence of the same
length whose element `i` is
`(signal[i] - median signal) / (scaleFactor * MAD signal)`. -/
theorem C6_normalize_mad_formula (signal : List Rat) (sf : Option Rat)
    (hne : signal ≠ []) (hmad : madQ signal ≠ 0) (hsf : sf.getD 1 ≠ 0) :
    (normalize_mad signal sf).length = signal.length
    ∧ normalize_mad signal sf
        = signal.map (fun x =>
            F.fin ((x - medQ signal) / (sf.getD 1 * madQ signal))) := by
  rw [normalize_mad_nonempty signal sf hne]
  refine ⟨by simp, ?_⟩
  congr 1
  funext x
  have hd : sf.getD 1 * madQ signal ≠ 0 := mul_ne_zero hsf hmad
  show (if sf.getD 1 * madQ signal = 0 then
      (if x - medQ signal = 0 then F.nan
       else if 0 < x - medQ signal then F.pinf else F.ninf)
    else F.fin ((x - medQ signal) / (sf.getD 1 * madQ signal)))
    = F.fin ((x - medQ signal) / (sf.getD 1 * madQ signal))
  rw [if_neg hd]

/-- C6 witness: the theorem at the worked example `[1, 2, 3, 4, 5]` with
scale factor `1` (median `3`, MAD `1`), whose output evaluates to
`[-2, -1, 0, 1, 2]`. -/
theorem C6_normalize_mad_formula_witness :
    ([1, 2, 3, 4, 5] : List Rat) ≠ [] ∧ madQ [1, 2, 3, 4, 5] ≠ 0
    ∧ ((some (1 : Rat)).getD 1 ≠ 0)
    ∧ ((normalize_mad [1, 2, 3, 4, 5] (some 1)).length = ([1, 2, 3, 4, 5] : List Rat).length
      ∧ normalize_mad [1, 2, 3, 4, 5] (some 1)
          = ([1, 2, 3, 4, 5] : List Rat).map (fun x =>
              F.fin ((x - medQ [1, 2, 3, 4, 5]) / ((some (1 : Rat)).getD 1 * madQ [1, 2, 3, 4, 5]))))
    ∧ normalize_mad [1, 2, 3, 4, 5] (some 1)
        = [F.fin (-2), F.fin (-1), F.fin 0, F.fin 1, F.fin 2] :=
  ⟨by simp, by with_unfolding_all decide, by with_unfolding_all decide,
    C6_normalize_mad_formula [1, 2, 3, 4, 5] (some 1) (by simp)
      (by with_unfolding_all decide) (by with_unfolding_all decide),
    by with_unfolding_all rfl⟩

/-! ### Motif Indexer lemmas -/

theorem scanAux_sound (pat s : List Char) :
    ∀ fuel i j, j ∈ scanAux pat s fuel i → matchesAt pat s j = true := by
  intro fuel
  induction fuel with
  | zero => intro i j h; simp [scanAux] at h
  | succ f ih =>
    intro i j h
    simp only [scanAux] at h
    by_cases hc : pat.length + i ≤ s.length
    · rw [if_pos hc] at h
      by_cases hm : matchesAt pat s i
      · rw [if_pos hm] at h
        rcases List.mem_cons.1 h with rfl | h2
        · exact hm
        · exact ih _ _ h2
      · rw [if_neg hm] at h
        exact ih _ _ h
    · rw [if_neg hc] at h
      simp at h

theorem scanAux_ge (pat s : List Char) :
    ∀ fuel i j, j ∈ scanAux pat s fuel i → i ≤ j := by
  intro fuel
  induction fuel with
  | zero => intro i j h; simp [scanAux] at h
  | succ f ih =>
    intro i j h
    simp only [scanAux] at h
    by_cases hc : pat.length + i ≤ s.length
    · rw [if_pos hc] at h
      by_cases hm : matchesAt pat s i
      · rw [if_pos hm] at h
        rcases List.mem_cons.1 h with rfl | h2
        · exact Nat.le_refl _
        · have := ih _ _ h2
          have hstep : 1 ≤ scanStep pat := le_max_right _ _
          omega
      · rw [if_neg hm] at h
        have := ih _ _ h
        omega
    · rw [if_neg hc] at h
      simp at h

theorem scanAux_chain (pat s : List Char) :
    ∀ fuel i, List.Chain' (fun a b => a + scanStep pat ≤ b) (scanAux pat s fuel i) := by
  intro fuel
  induction fuel with
  | zero => intro i; simp [scanAux]
  | succ f ih =>
    intro i
    simp only [scanAux]
    by_cases hc : pat.length + i ≤ s.length
    · rw [if_pos hc]
      by_cases hm : matchesAt pat s i
      · rw [if_pos hm]
        rw [List.chain'_cons']
        refine ⟨?_, ih _⟩
        intro y hy
        exact scanAux_ge pat s f _ y (List.mem_of_mem_head? hy)
      · rw [if_neg hm]
        exact ih _
    · rw [if_neg hc]
      simp

theorem matchesAt_le (pat s : List Char) (j : Nat) (hp : pat ≠ [])
    (hm : matchesAt pat s j = true) : j + pat.length ≤ s.length := by
  unfold matchesAt at hm
  have heq : ((s.drop j).take pat.length).map Char.toLower = pat.map Char.toLower :=
    eq_of_beq hm
  have hlen := congrArg List.length heq
  simp only [List.length_map, List.length_take, List.length_drop] at hlen
  have hpos : 0 < pat.length := List.length_pos.2 hp
  omega

theorem scanAux_complete (pat s : List Char) (hp : pat ≠ []) :
    ∀ fuel i j, i ≤ j → matchesAt pat s j = true → j - i < fuel →
      ∃ r ∈ scanAux pat s fuel i, r ≤ j ∧ j < r + pat.length := by
  intro fuel
  induction fuel with
  | zero => intro i j _ _ h; omega
  | succ f ih =>
    intro i j hij hm hfuel
    have hpos : 0 < pat.length := List.length_pos.2 hp
    have hstep : scanStep pat = pat.length := Nat.max_eq_left hpos
    have hjle := matchesAt_le pat s j hp hm
    have hc : pat.length + i ≤ s.length := by omega
    simp only [scanAux, if_pos hc]
    by_cases hmi : matchesAt pat s i
    · rw [if_pos hmi]
      by_cases hclose : j < i + pat.length
      · exact ⟨i, List.mem_cons_self _ _, hij, hclose⟩
      · have hij2 : i + scanStep pat ≤ j := by omega
        have hfuel2 : j - (i + scanStep pat) < f := by omega
        obtain ⟨r, hr, hrj, hjr⟩ := ih (i + scanStep pat) j hij2 hm hfuel2
        exact ⟨r, List.mem_cons_of_mem _ hr, hrj, hjr⟩
    · rw [if_neg hmi]
      have hne : i ≠ j := by
        intro h; subst h; exact hmi hm
      exact ih (i + 1) j (by omega) hm (by omega)

/-- C1 counterexample: contig `"AAA"` contains two overlapping occurrences
of the motif `"AA"` (at 0 and at 1 — `matchesAt` holds at position 1),
but `build_reference_idx` records only `{0}` in the forward set: the
`re.finditer` scan resumes after the end of a match instead of re-testing
every starting position, so the overlapping occurrence at 1 is missed
(the reverse-complement `"TTT"` has no match, so the reverse set is
empty). -/
theorem C1_counterexample_overlap_missed :
    matchesAt ['A', 'A'] ['A', 'A', 'A'] 1 = true
    ∧ alookup (build_reference_idx [("c", ['A', 'A', 'A'])] ['A', 'A'] 0) "c"
        = some ({0}, (∅ : Finset Int)) := by
  constructor
  · decide
  · decide

/-- C1 amended: the scan of `build_reference_idx` (`findIter`, the model
of `re.finditer`) records motif occurrences left to right but does NOT
re-test positions inside a previous match: every recorded position is a
true occurrence, consecutive recorded positions are at least a full motif
length apart (non-overlapping), and every occurrence of the motif either
is recorded or starts strictly inside an earlier recorded match — so
overlapping occurrences are dropped rather than recorded. -/
theorem C1_amended_nonoverlapping_scan (pat s : List Char) (hp : pat ≠ []) :
    (∀ j ∈ findIter pat s, matchesAt pat s j = true)
    ∧ List.Chain' (fun a b => a + pat.length ≤ b) (findIter pat s)
    ∧ ∀ j, matchesAt pat s j = true →
        ∃ r ∈ findIter pat s, r ≤ j ∧ j < r + pat.length := by
  have hpos : 0 < pat.length := List.length_pos.2 hp
  have hstep : scanStep pat = pat.length := Nat.max_eq_left hpos
  refine ⟨?_, ?_, ?_⟩
  · intro j hj
    exact scanAux_sound pat s _ _ j hj
  · have := scanAux_chain pat s (s.length + 2) 0
    rw [hstep] at this
    exact this
  · intro j hm
    have hjle := matchesAt_le pat s j hp hm
    exact scanAux_complete pat s hp (s.length + 2) 0 j (Nat.zero_le _) hm (by omega)

/-- C1 amended witness: the non-overlapping scan behaviour at motif
`"AA"` on contig `"AAA"`. -/
theorem C1_amended_nonoverlapping_scan_witness :
    (['A', 'A'] : List Char) ≠ []
    ∧ ((∀ j ∈ findIter ['A', 'A'] ['A', 'A', 'A'],
          matchesAt ['A', 'A'] ['A', 'A', 'A'] j = true)
      ∧ List.Chain' (fun a b => a + (['A', 'A'] : List Char).length ≤ b)
          (findIter ['A', 'A'] ['A', 'A', 'A'])
      ∧ ∀ j, matchesAt ['A', 'A'] ['A', 'A', 'A'] j = true →
          ∃ r ∈ findIter ['A', 'A'] ['A', 'A', 'A'],
            r ≤ j ∧ j < r + (['A', 'A'] : List Char).length) :=
  ⟨by decide, C1_amended_nonoverlapping_scan ['A', 'A'] ['A', 'A', 'A'] (by decide)⟩

theorem alookup_map_update_ne (m : List (String × α)) (k : String) (v : α)
    (n : String) (hne : k ≠ n) :
    alookup (m.map (fun p => if p.1 = k then (k, v) else p)) n = alookup m n := by
  induction m with
  | nil => rfl
  | cons p m ih =>
    obtain ⟨k0, v0⟩ := p
    rw [List.map_cons]
    by_cases hk : k0 = k
    · rw [if_pos (show (k0, v0).1 = k from hk)]
      show (if k = n then some v else alookup (m.map fun p => if p.1 = k then (k, v) else p) n)
        = (if k0 = n then some v0 else alookup m n)
      rw [if_neg hne, if_neg (fun h => hne (hk.symm.trans h))]
      exact ih
    · rw [if_neg (show ¬(k0, v0).1 = k from hk)]
      show (if k0 = n then some v0 else alookup (m.map fun p => if p.1 = k then (k, v) else p) n)
        = (if k0 = n then some v0 else alookup m n)
      by_cases hk0 : k0 = n
      · rw [if_pos hk0, if_pos hk0]
      · rw [if_neg hk0, if_neg hk0]
        exact ih

theorem alookup_append_ne (m : List (String × α)) (k : String) (v : α)
    (n : String) (hne : k ≠ n) :
    alookup (m ++ [(k, v)]) n = alookup m n := by
  induction m with
  | nil => simp [alookup, if_neg hne]
  | cons p m ih =>
    obtain ⟨k0, v0⟩ := p
    show (if k0 = n then some v0 else _) = (if k0 = n then some v0 else _)
    by_cases hk0 : k0 = n
    · rw [if_pos hk0, if_pos hk0]
    · rw [if_neg hk0, if_neg hk0]
      exact ih

theorem alookup_dictInsert_ne (m : List (String × α)) (k : String) (v : α)
    (n : String) (hne : k ≠ n) :
    alookup (dictInsert m k v) n = alookup m n := by
  unfold dictInsert
  by_cases hany : m.any (fun p => decide (p.1 = k))
  · rw [if_pos hany]
    exact alookup_map_update_ne m k v n hne
  · rw [if_neg hany]
    exact alookup_append_ne m k v n hne

theorem alookup_none_of_no_key (m : List (String × α)) (k : String)
    (h : ∀ p ∈ m, p.1 ≠ k) : alookup m k = none := by
  induction m with
  | nil => rfl
  | cons p m ih =>
    obtain ⟨k0, v0⟩ := p
    show (if k0 = k then some v0 else alookup m k) = none
    rw [if_neg (h (k0, v0) (List.mem_cons_self _ _))]
    exact ih (fun q hq => h q (List.mem_cons_of_mem _ hq))

theorem alookup_append_self (m : List (String × α)) (k : String) (v : α)
    (h : alookup m k = none) : alookup (m ++ [(k, v)]) k = some v := by
  induction m with
  | nil => simp [alookup]
  | cons p m ih =>
    obtain ⟨k0, v0⟩ := p
    have h' : (if k0 = k then some v0 else alookup m k) = none := h
    by_cases hk0 : k0 = k
    · rw [if_pos hk0] at h'
      exact absurd h' (by simp)
    · rw [if_neg hk0] at h'
      show (if k0 = k then some v0 else _) = some v
      rw [if_neg hk0]
      exact ih h'

theorem dictInsert_fresh (m : List (String × α)) (k : String) (v : α)
    (h : ∀ p ∈ m, p.1 ≠ k) : dictInsert m k v = m ++ [(k, v)] := by
  unfold dictInsert
  rw [if_neg]
  rw [List.any_eq_true]
  rintro ⟨p, hp, hpk⟩
  exact h p hp (by simpa using hpk)

theorem buildIdx_preserve (motif : List Char) (rel : Int) :
    ∀ (records : List (String × List Char)) (acc : List (String × (Finset Int × Finset Int)))
      (n : String), n ∉ records.map Prod.fst →
      alookup (records.foldl (fun m r => dictInsert m r.1 (processRecord motif rel r.2)) acc) n
        = alookup acc n := by
  intro records
  induction records with
  | nil => intro acc n _; rfl
  | cons r rest ih =>
    intro acc n hn
    obtain ⟨k0, s0⟩ := r
    simp only [List.map_cons, List.mem_cons, not_or] at hn
    rw [List.foldl_cons, ih _ n hn.2]
    exact alookup_dictInsert_ne acc k0 _ n (fun h => hn.1 h.symm)

theorem buildIdx_lookup (motif : List Char) (rel : Int) :
    ∀ (records : List (String × List Char)) (acc : List (String × (Finset Int × Finset Int)))
      (name : String) (seq : List Char),
      (records.map Prod.fst).Nodup →
      (∀ p ∈ acc, p.1 ∉ records.map Prod.fst) →
      (name, seq) ∈ records →
      alookup (records.foldl (fun m r => dictInsert m r.1 (processRecord motif rel r.2)) acc) name
        = some (processRecord motif rel seq) := by
  intro records
  induction records with
  | nil => intro acc name seq _ _ h; exact absurd h (List.not_mem_nil _)
  | cons r rest ih =>
    intro acc name seq hnodup hacc hmem
    obtain ⟨k0, s0⟩ := r
    rw [List.map_cons, List.nodup_cons] at hnodup
    have hfreshacc : ∀ p ∈ acc, p.1 ≠ k0 := by
      intro p hp
      have := hacc p hp
      simp only [List.map_cons, List.mem_cons, not_or] at this
      exact this.1
    have hins : dictInsert acc k0 (processRecord motif rel s0)
        = acc ++ [(k0, processRecord motif rel s0)] :=
      dictInsert_fresh acc k0 _ hfreshacc
    rw [List.foldl_cons]
    rcases List.mem_cons.1 hmem with heq | hrest
    · have hname : name = k0 := congrArg Prod.fst heq
      have hseq : seq = s0 := congrArg Prod.snd heq
      subst hname; subst hseq
      rw [buildIdx_preserve motif rel rest _ name hnodup.1, hins]
      exact alookup_append_self acc name _ (alookup_none_of_no_key acc name hfreshacc)
    · apply ih _ name seq hnodup.2 _ hrest
      intro p hp
      rw [hins] at hp
      rcases List.mem_append.1 hp with hpa | hpb
      · have := hacc p hpa
        simp only [List.map_cons, List.mem_cons, not_or] at this
        exact this.2
      · simp only [List.mem_singleton] at hpb
        subst hpb
        exact hnodup.1

/-- C3: for every input whose contig names are distinct, every contig of
the input appears as a key of `build_reference_idx`'s result, bound to the
pair of sets in which the forward set holds exactly the values
`matchStart + relIdx` over the matches found in the forward sequence and
the reverse set holds exactly the values `L - (matchStart + relIdx) - 1`
over the matches found in the reverse-complemented sequence; a contig
with no matches is bound to empty sets, not absent. -/
theorem C3_build_reference_idx_sets (records : List (String × List Char))
    (motif : List Char) (rel : Int) (name : String) (seq : List Char)
    (hnodup : (records.map Prod.fst).Nodup) (hmem : (name, seq) ∈ records) :
    ∃ fwd rev : Finset Int,
      alookup (build_reference_idx records motif rel) name = some (fwd, rev)
      ∧ (∀ p : Int, p ∈ fwd ↔ ∃ i ∈ findIter motif seq, p = (i : Int) + rel)
      ∧ (∀ p : Int, p ∈ rev ↔ ∃ i ∈ findIter motif (revcomp seq),
          p = (seq.length : Int) - ((i : Int) + rel) - 1)
      ∧ (findIter motif seq = [] → fwd = ∅)
      ∧ (findIter motif (revcomp seq) = [] → rev = ∅) := by
  refine ⟨(processRecord motif rel seq).1, (processRecord motif rel seq).2, ?_, ?_, ?_, ?_, ?_⟩
  · exact buildIdx_lookup motif rel records [] name seq hnodup (by intro p hp; simp at hp) hmem
  · intro p
    simp only [processRecord, List.mem_toFinset, List.mem_map]
    constructor
    · rintro ⟨i, hi, rfl⟩; exact ⟨i, hi, rfl⟩
    · rintro ⟨i, hi, rfl⟩; exact ⟨i, hi, rfl⟩
  · intro p
    simp only [processRecord, List.mem_toFinset, List.mem_map]
    constructor
    · rintro ⟨i, hi, rfl⟩; exact ⟨i, hi, rfl⟩
    · rintro ⟨i, hi, rfl⟩; exact ⟨i, hi, rfl⟩
  · intro h
    simp [processRecord, h]
  · intro h
    simp [processRecord, h]

/-- C3 witness: the worked example — single contig `"c" = "ACGTACGT"`,
motif `"ACGT"`, relative index `0`. -/
theorem C3_build_reference_idx_sets_witness :
    (([("c", ['A','C','G','T','A','C','G','T'])].map Prod.fst).Nodup
      ∧ ("c", ['A','C','G','T','A','C','G','T'])
          ∈ [("c", ['A','C','G','T','A','C','G','T'])])
    ∧ ∃ fwd rev : Finset Int,
      alookup (build_reference_idx [("c", ['A','C','G','T','A','C','G','T'])]
          ['A','C','G','T'] 0) "c" = some (fwd, rev)
      ∧ (∀ p : Int, p ∈ fwd ↔ ∃ i ∈ findIter ['A','C','G','T'] ['A','C','G','T','A','C','G','T'],
          p = (i : Int) + 0)
      ∧ (∀ p : Int, p ∈ rev ↔ ∃ i ∈ findIter ['A','C','G','T']
            (revcomp ['A','C','G','T','A','C','G','T']),
          p = ((['A','C','G','T','A','C','G','T'] : List Char).length : Int) - ((i : Int) + 0) - 1)
      ∧ (findIter ['A','C','G','T'] ['A','C','G','T','A','C','G','T'] = [] → fwd = ∅)
      ∧ (findIter ['A','C','G','T'] (revcomp ['A','C','G','T','A','C','G','T']) = [] → rev = ∅) :=
  ⟨⟨by decide, by decide⟩,
    C3_build_reference_idx_sets [("c", ['A','C','G','T','A','C','G','T'])]
      ['A','C','G','T'] 0 "c" ['A','C','G','T','A','C','G','T'] (by decide) (by decide)⟩

/-! ### CIGAR Mapper lemmas -/

theorem setAt_at_boundary (A : List (Option Nat)) (x : Option Nat)
    (B : List (Option Nat)) (v : Nat) :
    setAt (A ++ x :: B) A.length v = .ok (A ++ some (v % u32) :: B) := by
  induction A with
  | nil => rfl
  | cons y A ih =>
    show (match setAt (A ++ x :: B) A.length v with
      | .ok ys => Except.ok (y :: ys)
      | .error e => Except.error e) = _
    rw [ih]
    rfl

theorem setAt_error_kind (a : List (Option Nat)) (i v : Nat) (e : R2QError)
    (h : setAt a i v = .error e) : e = R2QError.indexError := by
  induction a generalizing i with
  | nil =>
    cases h
    rfl
  | cons x xs ih =>
    cases i with
    | zero => cases h
    | succ n =>
      have h' : (match setAt xs n v with
        | .ok ys => Except.ok (x :: ys)
        | .error e => Except.error e) = Except.error e := h
      cases hs : setAt xs n v with
      | ok ys => rw [hs] at h'; cases h'
      | error e2 => rw [hs] at h'; cases h'; exact ih n hs

theorem writeRun_error_kind :
    ∀ (l : Nat) (a : List (Option Nat)) (rpos qpos : Nat) (e : R2QError),
      writeRun a rpos qpos l = .error e → e = R2QError.indexError := by
  intro l
  induction l with
  | zero => intro a rpos qpos e h; cases h
  | succ k ih =>
    intro a rpos qpos e h
    have h' : (match setAt a rpos qpos with
      | .ok a1 => writeRun a1 (rpos + 1) (qpos + 1) k
      | .error e => Except.error e) = Except.error e := h
    cases hs : setAt a rpos qpos with
    | ok a1 => rw [hs] at h'; exact ih _ _ _ _ h'
    | error e2 => rw [hs] at h'; cases h'; exact setAt_error_kind _ _ _ _ hs

theorem writeDelRun_error_kind :
    ∀ (l : Nat) (a : List (Option Nat)) (rpos qpos : Nat) (e : R2QError),
      writeDelRun a rpos qpos l = .error e → e = R2QError.indexError := by
  intro l
  induction l with
  | zero => intro a rpos qpos e h; cases h
  | succ k ih =>
    intro a rpos qpos e h
    have h' : (match setAt a rpos qpos with
      | .ok a1 => writeDelRun a1 (rpos + 1) qpos k
      | .error e => Except.error e) = Except.error e := h
    cases hs : setAt a rpos qpos with
    | ok a1 => rw [hs] at h'; exact ih _ _ _ _ h'
    | error e2 => rw [hs] at h'; cases h'; exact setAt_error_kind _ _ _ _ hs

theorem rangeShift (n q : Nat) :
    (List.range (n + 1)).map (fun i => q + i)
      = q :: (List.range n).map (fun i => (q + 1) + i) := by
  have hc : ((fun i => q + i) ∘ Nat.succ) = fun i => (q + 1) + i := by
    funext i
    show q + (i + 1) = (q + 1) + i
    omega
  rw [List.range_succ_eq_map, List.map_cons, List.map_map, hc]
  norm_num

theorem rangeShiftMod (n q : Nat) :
    (List.range (n + 1)).map (fun i => some ((q + i) % u32))
      = some (q % u32) :: (List.range n).map (fun i => some (((q + 1) + i) % u32)) := by
  have hc : ((fun i => some ((q + i) % u32)) ∘ Nat.succ)
      = fun i => some (((q + 1) + i) % u32) := by
    funext i
    show some ((q + (i + 1)) % u32) = some (((q + 1) + i) % u32)
    have h : q + (i + 1) = (q + 1) + i := by omega
    rw [h]
  rw [List.range_succ_eq_map, List.map_cons, List.map_map, hc]
  norm_num

theorem writeRun_spec :
    ∀ (l : Nat) (A : List (Option Nat)) (m qpos : Nat), l ≤ m →
      writeRun (A ++ List.replicate m none) A.length qpos l
        = .ok (A ++ (List.range l).map (fun i => some ((qpos + i) % u32))
            ++ List.replicate (m - l) none) := by
  intro l
  induction l with
  | zero =>
    intro A m qpos _
    simp [writeRun]
  | succ k ih =>
    intro A m qpos hlm
    cases m with
    | zero => omega
    | succ m' =>
      show (match setAt (A ++ List.replicate (m' + 1) none) A.length qpos with
        | .ok a1 => writeRun a1 (A.length + 1) (qpos + 1) k
        | .error e => Except.error e) = _
      rw [List.replicate_succ, setAt_at_boundary]
      show writeRun (A ++ some (qpos % u32) :: List.replicate m' none)
        (A.length + 1) (qpos + 1) k = _
      have hA1 : A ++ some (qpos % u32) :: List.replicate m' none
          = (A ++ [some (qpos % u32)]) ++ List.replicate m' none := by
        simp
      have hlen : A.length + 1 = (A ++ [some (qpos % u32)]).length := by simp
      rw [hA1, hlen, ih (A ++ [some (qpos % u32)]) m' (qpos + 1) (by omega)]
      rw [rangeShiftMod k qpos]
      simp [List.append_assoc, Nat.succ_sub_succ]

theorem writeDelRun_spec :
    ∀ (l : Nat) (A : List (Option Nat)) (m qpos : Nat), l ≤ m →
      writeDelRun (A ++ List.replicate m none) A.length qpos l
        = .ok (A ++ List.replicate l (some (qpos % u32))
            ++ List.replicate (m - l) none) := by
  intro l
  induction l with
  | zero =>
    intro A m qpos _
    simp [writeDelRun]
  | succ k ih =>
    intro A m qpos hlm
    cases m with
    | zero => omega
    | succ m' =>
      show (match setAt (A ++ List.replicate (m' + 1) none) A.length qpos with
        | .ok a1 => writeDelRun a1 (A.length + 1) qpos k
        | .error e => Except.error e) = _
      rw [List.replicate_succ, setAt_at_boundary]
      show writeDelRun (A ++ some (qpos % u32) :: List.replicate m' none)
        (A.length + 1) qpos k = _
      have hA1 : A ++ some (qpos % u32) :: List.replicate m' none
          = (A ++ [some (qpos % u32)]) ++ List.replicate m' none := by
        simp
      have hlen : A.length + 1 = (A ++ [some (qpos % u32)]).length := by simp
      rw [hA1, hlen, ih (A ++ [some (qpos % u32)]) m' qpos (by omega)]
      rw [List.replicate_succ]
      simp [List.append_assoc, Nat.succ_sub_succ]

theorem bodySpec_length (c : List (Nat × Nat)) (hval : opsValid c) :
    ∀ q, (bodySpec q c).length = refAdvance c := by
  induction c with
  | nil => intro q; rfl
  | cons p rest ih =>
    obtain ⟨l, op⟩ := p
    intro q
    have hvrest : opsValid rest := fun r hr => hval r (List.mem_cons_of_mem _ hr)
    have hop := hval (l, op) (List.mem_cons_self _ _)
    rcases hop with h | h | h | h | h <;> subst h <;>
      simp [bodySpec, refAdvance, ih hvrest]

theorem r2qGo_spec :
    ∀ (c : List (Nat × Nat)), opsValid c →
      ∀ (A : List (Option Nat)) (m qpos : Nat), refAdvance c ≤ m →
      r2qGo c A.length qpos (A ++ List.replicate m none)
        = .ok (A.length + refAdvance c, qpos + qAdvance c,
            A ++ (bodySpec qpos c).map (fun v => some (v % u32))
              ++ List.replicate (m - refAdvance c) none) := by
  intro c
  induction c with
  | nil =>
    intro _ A m qpos _
    simp [r2qGo, refAdvance, qAdvance, bodySpec]
  | cons p rest ih =>
    obtain ⟨l, op⟩ := p
    intro hval A m qpos hm
    have hvrest : opsValid rest := fun r hr => hval r (List.mem_cons_of_mem _ hr)
    have hop := hval (l, op) (List.mem_cons_self _ _)
    have hrm : refAdvance ((l, op) :: rest)
        = (if op = 0 ∨ op = 7 ∨ op = 8 ∨ op = 2 then l else 0) + refAdvance rest := rfl
    rcases hop with h | h | h | h | h
    -- match (op = 0), insertion (op = 1), deletion (op = 2),
    -- then the other match codes (op = 7, op = 8)
    · subst h
      have hlm : l ≤ m := by rw [hrm] at hm; simp at hm; omega
      simp only [r2qGo]
      rw [if_pos (by norm_num)]
      rw [writeRun_spec l A m qpos hlm]
      show r2qGo rest (A.length + l) (qpos + l)
        (A ++ (List.range l).map (fun i => some ((qpos + i) % u32))
          ++ List.replicate (m - l) none) = _
      have hAl : A.length + l
          = (A ++ (List.range l).map (fun i => some ((qpos + i) % u32))).length := by
        simp
      rw [hAl, ih hvrest _ (m - l) (qpos + l) (by rw [hrm] at hm; simp at hm; omega)]
      simp [refAdvance, qAdvance, bodySpec, List.map_append, List.map_map,
        List.append_assoc, Nat.add_assoc, Nat.sub_sub]
    · subst h
      simp only [r2qGo]
      rw [if_neg (by norm_num)]
      simp only [if_true]
      rw [ih hvrest A m (qpos + l) (by rw [hrm] at hm; simp at hm; omega)]
      simp [refAdvance, qAdvance, bodySpec, Nat.add_assoc]
    · subst h
      have hlm : l ≤ m := by rw [hrm] at hm; simp at hm; omega
      simp only [r2qGo]
      rw [if_neg (by norm_num), if_neg (by norm_num)]
      simp only [if_true]
      rw [writeDelRun_spec l A m qpos hlm]
      show r2qGo rest (A.length + l) qpos
        (A ++ List.replicate l (some (qpos % u32)) ++ List.replicate (m - l) none) = _
      have hAl : A.length + l
          = (A ++ List.replicate l (some (qpos % u32))).length := by
        simp
      rw [hAl, ih hvrest _ (m - l) qpos (by rw [hrm] at hm; simp at hm; omega)]
      simp [refAdvance, qAdvance, bodySpec, List.map_append, List.map_replicate,
        List.append_assoc, Nat.add_assoc, Nat.sub_sub]
    · subst h
      have hlm : l ≤ m := by rw [hrm] at hm; simp at hm; omega
      simp only [r2qGo]
      rw [if_pos (by norm_num)]
      rw [writeRun_spec l A m qpos hlm]
      show r2qGo rest (A.length + l) (qpos + l)
        (A ++ (List.range l).map (fun i => some ((qpos + i) % u32))
          ++ List.replicate (m - l) none) = _
      have hAl : A.length + l
          = (A ++ (List.range l).map (fun i => some ((qpos + i) % u32))).length := by
        simp
      rw [hAl, ih hvrest _ (m - l) (qpos + l) (by rw [hrm] at hm; simp at hm; omega)]
      simp [refAdvance, qAdvance, bodySpec, List.map_append, List.map_map,
        List.append_assoc, Nat.add_assoc, Nat.sub_sub]
    · subst h
      have hlm : l ≤ m := by rw [hrm] at hm; simp at hm; omega
      simp only [r2qGo]
      rw [if_pos (by norm_num)]
      rw [writeRun_spec l A m qpos hlm]
      show r2qGo rest (A.length + l) (qpos + l)
        (A ++ (List.range l).map (fun i => some ((qpos + i) % u32))
          ++ List.replicate (m - l) none) = _
      have hAl : A.length + l
          = (A ++ (List.range l).map (fun i => some ((qpos + i) % u32))).length := by
        simp
      rw [hAl, ih hvrest _ (m - l) (qpos + l) (by rw [hrm] at hm; simp at hm; omega)]
      simp [refAdvance, qAdvance, bodySpec, List.map_append, List.map_map,
        List.append_assoc, Nat.add_assoc, Nat.sub_sub]

/-- The bridging theorem: under valid operations and an agreeing span,
`reference_to_query` succeeds and its table is exactly the
specification-level `tableSpec` (each value stored modulo `2 ^ 32`). -/
theorem reference_to_query_spec (q_st : Nat) (strand : Int) (r_st r_en : Nat)
    (cigar : List (Nat × Nat))
    (hval : opsValid (effCigar strand cigar))
    (hspan : refAdvance (effCigar strand cigar) = r_en - r_st) :
    reference_to_query q_st strand r_st r_en cigar
      = .ok ((tableSpec q_st (effCigar strand cigar)).map (fun v => some (v % u32))) := by
  have hgo := r2qGo_spec (effCigar strand cigar) hval [] (r_en - r_st + 1) q_st
    (by omega)
  simp only [List.nil_append, List.length_nil] at hgo
  simp only [reference_to_query]
  rw [hgo]
  show setAt ((bodySpec q_st (effCigar strand cigar)).map (fun v => some (v % u32))
      ++ List.replicate (r_en - r_st + 1 - refAdvance (effCigar strand cigar)) none)
    (0 + refAdvance (effCigar strand cigar)) (q_st + qAdvance (effCigar strand cigar)) = _
  rw [hspan]
  have hrep : List.replicate (r_en - r_st + 1 - (r_en - r_st)) (none : Option Nat)
      = [none] := by
    have : r_en - r_st + 1 - (r_en - r_st) = 1 := by omega
    rw [this]
    rfl
  rw [hrep]
  have hblen : 0 + (r_en - r_st)
      = ((bodySpec q_st (effCigar strand cigar)).map (fun v => some (v % u32))).length := by
    rw [List.length_map, bodySpec_length _ hval, hspan]
    omega
  rw [hblen, setAt_at_boundary]
  unfold tableSpec
  rw [List.map_append]
  rfl

/-- C10: under the precondition that the CIGAR's summed match/mismatch/
deletion lengths equal the declared span `r_en - r_st` (and the operation
codes are the supported ones, without which the Python function raises
before returning), `reference_to_query` returns successfully — i.e. no
write went out of bounds, since an out-of-bounds write is modelled as
`indexError` — with a table of length span + 1 in which every slot was
written (`some _`): no `none` slot of the uninitialised `np.empty`
buffer survives to the caller. -/
theorem C10_reference_to_query_writes (q_st : Nat) (strand : Int)
    (r_st r_en : Nat) (cigar : List (Nat × Nat))
    (hval : opsValid (effCigar strand cigar))
    (hspan : refAdvance (effCigar strand cigar) = r_en - r_st) :
    ∃ t, reference_to_query q_st strand r_st r_en cigar = .ok t
      ∧ t.length = (r_en - r_st) + 1
      ∧ ∀ i < t.length, ∃ v, t.get? i = some (some v) := by
  refine ⟨_, reference_to_query_spec q_st strand r_st r_en cigar hval hspan, ?_, ?_⟩
  · rw [List.length_map]
    unfold tableSpec
    rw [List.length_append, bodySpec_length _ hval, hspan]
    rfl
  · intro i hi
    rw [List.length_map] at hi
    cases h : (tableSpec q_st (effCigar strand cigar)).get? i with
    | none =>
      rw [List.get?_eq_none] at h
      omega
    | some v =>
      refine ⟨v % u32, ?_⟩
      rw [List.get?_map, h]
      rfl

/-- C10 witness: a match followed by a deletion, span 2, reference
interval `[2, 4)`. -/
theorem C10_reference_to_query_writes_witness :
    opsValid (effCigar 1 [(1, 0), (1, 2)])
    ∧ refAdvance (effCigar 1 [(1, 0), (1, 2)]) = 4 - 2
    ∧ ∃ t, reference_to_query 1 1 2 4 [(1, 0), (1, 2)] = .ok t
      ∧ t.length = (4 - 2) + 1
      ∧ ∀ i < t.length, ∃ v, t.get? i = some (some v) :=
  ⟨by decide, by decide,
    C10_reference_to_query_writes 1 1 2 4 [(1, 0), (1, 2)] (by decide) (by decide)⟩

theorem tableSpec_consM (l op : Nat) (hop : op = 0 ∨ op = 7 ∨ op = 8)
    (q : Nat) (rest : List (Nat × Nat)) :
    tableSpec q ((l, op) :: rest)
      = (List.range l).map (fun i => q + i) ++ tableSpec (q + l) rest := by
  rcases hop with h | h | h <;> subst h <;>
    simp [tableSpec, bodySpec, qAdvance, List.append_assoc, Nat.add_assoc]

theorem tableSpec_consI (l q : Nat) (rest : List (Nat × Nat)) :
    tableSpec q ((l, 1) :: rest) = tableSpec (q + l) rest := by
  simp [tableSpec, bodySpec, qAdvance, Nat.add_assoc]

theorem tableSpec_consD (l q : Nat) (rest : List (Nat × Nat)) :
    tableSpec q ((l, 2) :: rest) = List.replicate l q ++ tableSpec q rest := by
  simp [tableSpec, bodySpec, qAdvance, List.append_assoc]

theorem tableSpec_head (c : List (Nat × Nat)) (hval : opsValid c) :
    ∀ q, (tableSpec q c).head? = some (q + (insFollows c).2) := by
  induction c with
  | nil => intro q; simp [tableSpec, bodySpec, qAdvance, insFollows]
  | cons p rest ih =>
    obtain ⟨l, op⟩ := p
    intro q
    have hvrest : opsValid rest := fun r hr => hval r (List.mem_cons_of_mem _ hr)
    have hop := hval (l, op) (List.mem_cons_self _ _)
    rcases hop with h | h | h | h | h
    · subst h
      cases l with
      | zero =>
        rw [tableSpec_consM 0 0 (Or.inl rfl)]
        simp only [List.range_zero, List.map_nil, List.nil_append]
        rw [ih hvrest]
        simp [insFollows]
      | succ k =>
        rw [tableSpec_consM (k + 1) 0 (Or.inl rfl), rangeShift]
        simp [insFollows]
    · subst h
      rw [tableSpec_consI, ih hvrest]
      simp [insFollows, Nat.add_assoc]
    · subst h
      cases l with
      | zero =>
        rw [tableSpec_consD]
        simp only [List.replicate_zero, List.nil_append]
        rw [ih hvrest]
        simp [insFollows]
      | succ k =>
        rw [tableSpec_consD, List.replicate_succ]
        simp [insFollows]
    · subst h
      cases l with
      | zero =>
        rw [tableSpec_consM 0 7 (Or.inr (Or.inl rfl))]
        simp only [List.range_zero, List.map_nil, List.nil_append]
        rw [ih hvrest]
        simp [insFollows]
      | succ k =>
        rw [tableSpec_consM (k + 1) 7 (Or.inr (Or.inl rfl)), rangeShift]
        simp [insFollows]
    · subst h
      cases l with
      | zero =>
        rw [tableSpec_consM 0 8 (Or.inr (Or.inr rfl))]
        simp only [List.range_zero, List.map_nil, List.nil_append]
        rw [ih hvrest]
        simp [insFollows]
      | succ k =>
        rw [tableSpec_consM (k + 1) 8 (Or.inr (Or.inr rfl)), rangeShift]
        simp [insFollows]

theorem chainRun (n : Nat) :
    ∀ q, List.Chain' (· ≤ ·) ((List.range n).map (fun i => q + i)) := by
  induction n with
  | zero => intro q; simp
  | succ k ih =>
    intro q
    rw [rangeShift]
    rw [List.chain'_cons']
    refine ⟨?_, ih (q + 1)⟩
    intro y hy
    cases k with
    | zero => simp at hy
    | succ k2 =>
      rw [rangeShift] at hy
      simp only [List.head?_cons, Option.mem_def, Option.some.injEq] at hy
      omega

theorem chainRep (n q : Nat) :
    List.Chain' (· ≤ ·) (List.replicate n q) := by
  induction n with
  | zero => simp
  | succ k ih =>
    rw [List.replicate_succ, List.chain'_cons']
    refine ⟨?_, ih⟩
    intro y hy
    cases k with
    | zero => simp at hy
    | succ k2 =>
      rw [List.replicate_succ] at hy
      simp only [List.head?_cons, Option.mem_def, Option.some.injEq] at hy
      omega

theorem lastRun (n q : Nat) :
    ((List.range (n + 1)).map (fun i => q + i)).getLast? = some (q + n) := by
  rw [List.range_succ, List.map_append]
  simp

theorem lastRep (n q : Nat) :
    (List.replicate (n + 1) q).getLast? = some q := by
  rw [List.replicate_succ']
  simp

theorem tableSpec_chain (c : List (Nat × Nat)) (hval : opsValid c) :
    ∀ q, List.Chain' (· ≤ ·) (tableSpec q c) := by
  induction c with
  | nil => intro q; simp [tableSpec, bodySpec]
  | cons p rest ih =>
    obtain ⟨l, op⟩ := p
    intro q
    have hvrest : opsValid rest := fun r hr => hval r (List.mem_cons_of_mem _ hr)
    have hop := hval (l, op) (List.mem_cons_self _ _)
    have hM : ∀ hop2 : op = 0 ∨ op = 7 ∨ op = 8,
        List.Chain' (· ≤ ·) (tableSpec q ((l, op) :: rest)) := by
      intro hop2
      rw [tableSpec_consM l op hop2]
      rw [List.chain'_append]
      refine ⟨chainRun l q, ih hvrest (q + l), ?_⟩
      intro x hx y hy
      cases l with
      | zero => simp at hx
      | succ k =>
        rw [lastRun] at hx
        rw [tableSpec_head rest hvrest] at hy
        simp only [Option.mem_def, Option.some.injEq] at hx hy
        omega
    rcases hop with h | h | h | h | h
    · exact hM (Or.inl h)
    · subst h
      rw [tableSpec_consI]
      exact ih hvrest (q + l)
    · subst h
      rw [tableSpec_consD]
      rw [List.chain'_append]
      refine ⟨chainRep l q, ih hvrest q, ?_⟩
      intro x hx y hy
      cases l with
      | zero => simp at hx
      | succ k =>
        rw [lastRep] at hx
        rw [tableSpec_head rest hvrest] at hy
        simp only [Option.mem_def, Option.some.injEq] at hx hy
        omega
    · exact hM (Or.inr (Or.inl h))
    · exact hM (Or.inr (Or.inr h))

theorem diffs_run :
    ∀ (k q h : Nat) (T : List Nat), T.head? = some h →
      diffs ((List.range (k + 1)).map (fun i => q + i) ++ T)
        = List.replicate k 1 ++ (h - (q + k)) :: diffs T := by
  intro k
  induction k with
  | zero =>
    intro q h T hT
    cases T with
    | nil => cases hT
    | cons t ts =>
      simp only [List.head?_cons, Option.some.injEq] at hT
      subst hT
      show diffs (q :: t :: ts) = List.replicate 0 1 ++ (t - (q + 0)) :: diffs (t :: ts)
      simp [diffs]
  | succ k2 ih =>
    intro q h T hT
    rw [rangeShift (k2 + 1) q, rangeShift k2 (q + 1)]
    show diffs (q :: (q + 1) :: ((List.range k2).map (fun i => (q + 1 + 1) + i) ++ T)) = _
    rw [show diffs (q :: (q + 1) :: ((List.range k2).map (fun i => (q + 1 + 1) + i) ++ T))
        = ((q + 1) - q) :: diffs ((q + 1) :: ((List.range k2).map (fun i => (q + 1 + 1) + i) ++ T))
      from rfl]
    rw [show (q + 1) :: ((List.range k2).map (fun i => (q + 1 + 1) + i) ++ T)
        = ((List.range (k2 + 1)).map (fun i => (q + 1) + i)) ++ T by
      rw [rangeShift k2 (q + 1)]
      rfl]
    rw [ih (q + 1) h T hT]
    have h1 : (q + 1) - q = 1 := by omega
    have h2 : h - (q + 1 + k2) = h - (q + (k2 + 1)) := by omega
    rw [h1, h2, List.replicate_succ]
    rfl

theorem diffs_rep :
    ∀ (k q h : Nat) (T : List Nat), T.head? = some h →
      diffs (List.replicate (k + 1) q ++ T)
        = List.replicate k 0 ++ (h - q) :: diffs T := by
  intro k
  induction k with
  | zero =>
    intro q h T hT
    cases T with
    | nil => cases hT
    | cons t ts =>
      simp only [List.head?_cons, Option.some.injEq] at hT
      subst hT
      show diffs (q :: t :: ts) = List.replicate 0 0 ++ (t - q) :: diffs (t :: ts)
      simp [diffs]
  | succ k2 ih =>
    intro q h T hT
    rw [List.replicate_succ, List.replicate_succ]
    show diffs (q :: q :: (List.replicate k2 q ++ T)) = _
    rw [show diffs (q :: q :: (List.replicate k2 q ++ T))
        = (q - q) :: diffs (q :: (List.replicate k2 q ++ T)) from rfl]
    rw [show q :: (List.replicate k2 q ++ T) = List.replicate (k2 + 1) q ++ T by
      rw [List.replicate_succ]
      rfl]
    rw [ih q h T hT]
    have h1 : q - q = 0 := by omega
    rw [h1, List.replicate_succ]
    rfl

theorem posKinds_length (c : List (Nat × Nat)) (hval : opsValid c) :
    (posKinds c).length = refAdvance c := by
  induction c with
  | nil => rfl
  | cons p rest ih =>
    obtain ⟨l, op⟩ := p
    have hvrest : opsValid rest := fun r hr => hval r (List.mem_cons_of_mem _ hr)
    have hop := hval (l, op) (List.mem_cons_self _ _)
    rcases hop with h | h | h | h | h <;> subst h <;>
      simp [posKinds, refAdvance, ih hvrest]

theorem insFollows_length (c : List (Nat × Nat)) (hval : opsValid c) :
    (insFollows c).1.length = refAdvance c := by
  induction c with
  | nil => rfl
  | cons p rest ih =>
    obtain ⟨l, op⟩ := p
    have hvrest : opsValid rest := fun r hr => hval r (List.mem_cons_of_mem _ hr)
    have hop := hval (l, op) (List.mem_cons_self _ _)
    rcases hop with h | h | h | h | h <;> subst h <;>
      cases l <;> simp [insFollows, refAdvance, ih hvrest] <;> omega

theorem tableSpec_diffs (c : List (Nat × Nat)) (hval : opsValid c) :
    ∀ q, diffs (tableSpec q c)
      = List.zipWith (· + ·) (posKinds c) (insFollows c).1 := by
  induction c with
  | nil => intro q; simp [tableSpec, bodySpec, posKinds, insFollows, diffs]
  | cons p rest ih =>
    obtain ⟨l, op⟩ := p
    intro q
    have hvrest : opsValid rest := fun r hr => hval r (List.mem_cons_of_mem _ hr)
    have hop := hval (l, op) (List.mem_cons_self _ _)
    have hMstep : ∀ (k : Nat), op = 0 ∨ op = 7 ∨ op = 8 →
        posKinds ((k + 1, op) :: rest) = List.replicate (k + 1) 1 ++ posKinds rest →
        insFollows ((k + 1, op) :: rest)
          = (List.replicate k 0 ++ (insFollows rest).2 :: (insFollows rest).1, 0) →
        diffs (tableSpec q ((k + 1, op) :: rest))
          = List.zipWith (· + ·) (posKinds ((k + 1, op) :: rest))
              (insFollows ((k + 1, op) :: rest)).1 := by
      intro k hop2 hpk hif
      rw [tableSpec_consM (k + 1) op hop2]
      rw [diffs_run k q (q + (k + 1) + (insFollows rest).2) _
        (by rw [tableSpec_head rest hvrest])]
      rw [ih hvrest (q + (k + 1)), hpk, hif]
      have hrw : List.replicate (k + 1) 1 = List.replicate k 1 ++ [1] :=
        List.replicate_succ' ..
      rw [hrw]
      dsimp only
      have hassoc : List.replicate k 0 ++ (insFollows rest).2 :: (insFollows rest).1
          = (List.replicate k 0 ++ [(insFollows rest).2]) ++ (insFollows rest).1 := by
        simp
      rw [hassoc]
      rw [List.zipWith_append _ _ _ _ _ (by simp)]
      rw [List.zipWith_append _ _ _ _ _ (by simp)]
      simp only [List.zipWith_replicate', List.zipWith_cons_cons, List.zipWith_nil_right,
        List.zipWith_nil_left, List.append_assoc, List.singleton_append, List.nil_append]
      have h1 : q + (k + 1) + (insFollows rest).2 - (q + k) = 1 + (insFollows rest).2 := by
        omega
      rw [h1]
    rcases hop with h | h | h | h | h
    · subst h
      cases l with
      | zero =>
        rw [tableSpec_consM 0 0 (Or.inl rfl)]
        simp only [List.range_zero, List.map_nil, List.nil_append, Nat.add_zero]
        rw [ih hvrest q]
        simp [posKinds, insFollows]
      | succ k =>
        exact hMstep k (Or.inl rfl) (by simp [posKinds]) (by simp [insFollows])
    · subst h
      rw [tableSpec_consI, ih hvrest (q + l)]
      simp [posKinds, insFollows]
    · subst h
      cases l with
      | zero =>
        rw [tableSpec_consD]
        simp only [List.replicate_zero, List.nil_append]
        rw [ih hvrest q]
        simp [posKinds, insFollows]
      | succ k =>
        rw [tableSpec_consD]
        rw [diffs_rep k q (q + (insFollows rest).2) _
          (by rw [tableSpec_head rest hvrest])]
        rw [ih hvrest q]
        have hpk : posKinds ((k + 1, 2) :: rest)
            = List.replicate (k + 1) 0 ++ posKinds rest := by
          simp [posKinds]
        have hif : insFollows ((k + 1, 2) :: rest)
            = (List.replicate k 0 ++ (insFollows rest).2 :: (insFollows rest).1, 0) := by
          simp [insFollows]
        rw [hpk, hif]
        have hrw : List.replicate (k + 1) 0 = List.replicate k 0 ++ [0] :=
          List.replicate_succ' ..
        rw [hrw]
        dsimp only
        have hassoc : List.replicate k 0 ++ (insFollows rest).2 :: (insFollows rest).1
            = (List.replicate k 0 ++ [(insFollows rest).2]) ++ (insFollows rest).1 := by
          simp
        rw [hassoc]
        rw [List.zipWith_append _ _ _ _ _ (by simp)]
        rw [List.zipWith_append _ _ _ _ _ (by simp)]
        simp only [List.zipWith_replicate', List.zipWith_cons_cons, List.zipWith_nil_right,
          List.zipWith_nil_left, List.append_assoc, List.singleton_append, List.nil_append]
        have h1 : q + (insFollows rest).2 - q = 0 + (insFollows rest).2 := by omega
        rw [h1]
    · subst h
      cases l with
      | zero =>
        rw [tableSpec_consM 0 7 (Or.inr (Or.inl rfl))]
        simp only [List.range_zero, List.map_nil, List.nil_append, Nat.add_zero]
        rw [ih hvrest q]
        simp [posKinds, insFollows]
      | succ k =>
        exact hMstep k (Or.inr (Or.inl rfl)) (by simp [posKinds]) (by simp [insFollows])
    · subst h
      cases l with
      | zero =>
        rw [tableSpec_consM 0 8 (Or.inr (Or.inr rfl))]
        simp only [List.range_zero, List.map_nil, List.nil_append, Nat.add_zero]
        rw [ih hvrest q]
        simp [posKinds, insFollows]
      | succ k =>
        exact hMstep k (Or.inr (Or.inr rfl)) (by simp [posKinds]) (by simp [insFollows])

theorem tableSpec_le (c : List (Nat × Nat)) (hval : opsValid c) :
    ∀ q v, v ∈ tableSpec q c → v ≤ q + qAdvance c := by
  induction c with
  | nil =>
    intro q v hv
    simp [tableSpec, bodySpec] at hv
    omega
  | cons p rest ih =>
    obtain ⟨l, op⟩ := p
    intro q v hv
    have hvrest : opsValid rest := fun r hr => hval r (List.mem_cons_of_mem _ hr)
    have hop := hval (l, op) (List.mem_cons_self _ _)
    have hM : ∀ hop2 : op = 0 ∨ op = 7 ∨ op = 8,
        qAdvance ((l, op) :: rest) = l + qAdvance rest →
        v ≤ q + qAdvance ((l, op) :: rest) := by
      intro hop2 hqa
      rw [tableSpec_consM l op hop2] at hv
      rcases List.mem_append.1 hv with h1 | h1
      · rw [List.mem_map] at h1
        obtain ⟨i, hi, rfl⟩ := h1
        rw [List.mem_range] at hi
        omega
      · have := ih hvrest (q + l) v h1
        omega
    rcases hop with h | h | h | h | h
    · exact hM (Or.inl h) (by subst h; simp [qAdvance])
    · subst h
      rw [tableSpec_consI] at hv
      have := ih hvrest (q + l) v hv
      have hqa : qAdvance ((l, 1) :: rest) = l + qAdvance rest := by simp [qAdvance]
      omega
    · subst h
      rw [tableSpec_consD] at hv
      have hqa : qAdvance ((l, 2) :: rest) = qAdvance rest := by simp [qAdvance]
      rcases List.mem_append.1 hv with h1 | h1
      · have := List.eq_of_mem_replicate h1
        omega
      · have := ih hvrest q v h1
        omega
    · exact hM (Or.inr (Or.inl h)) (by subst h; simp [qAdvance])
    · exact hM (Or.inr (Or.inr h)) (by subst h; simp [qAdvance])

theorem get?_lt_length (L : List Nat) (i : Nat) (h : i < L.length) :
    ∃ v, L.get? i = some v := by
  cases hg : L.get? i with
  | none =>
    rw [List.get?_eq_none] at hg
    omega
  | some v => exact ⟨v, rfl⟩

theorem diffs_get? (L : List Nat) :
    ∀ i v w, L.get? i = some v → L.get? (i + 1) = some w →
      (diffs L).get? i = some (w - v) := by
  induction L with
  | nil => intro i v w hv _; simp at hv
  | cons a t ih =>
    intro i v w hv hw
    cases t with
    | nil =>
      have : [a].get? (i + 1) = none := by
        rw [List.get?_eq_none]
        simp
      rw [this] at hw
      cases hw
    | cons b t2 =>
      cases i with
      | zero =>
        simp only [List.get?_cons_zero, Option.some.injEq] at hv
        simp only [List.get?_cons_succ, List.get?_cons_zero, Option.some.injEq] at hw
        subst hv; subst hw
        rfl
      | succ j =>
        simp only [List.get?_cons_succ] at hv hw
        show (diffs (b :: t2)).get? j = some (w - v)
        exact ih j v w hv hw

theorem chain'_le_get? (L : List Nat) (hc : List.Chain' (· ≤ ·) L) :
    ∀ i v w, L.get? i = some v → L.get? (i + 1) = some w → v ≤ w := by
  induction L with
  | nil => intro i v w hv _; simp at hv
  | cons a t ih =>
    intro i v w hv hw
    cases t with
    | nil =>
      have : [a].get? (i + 1) = none := by
        rw [List.get?_eq_none]
        simp
      rw [this] at hw
      cases hw
    | cons b t2 =>
      rw [List.chain'_cons] at hc
      cases i with
      | zero =>
        simp only [List.get?_cons_zero, Option.some.injEq] at hv
        simp only [List.get?_cons_succ, List.get?_cons_zero, Option.some.injEq] at hw
        subst hv; subst hw
        exact hc.1
      | succ j =>
        simp only [List.get?_cons_succ] at hv hw
        exact ih hc.2 j v w hv hw

theorem zipWith_add_get? (A : List Nat) :
    ∀ (B : List Nat) i c, (List.zipWith (· + ·) A B).get? i = some c →
      ∃ a b, A.get? i = some a ∧ B.get? i = some b ∧ c = a + b := by
  induction A with
  | nil => intro B i c h; simp at h
  | cons a A ih =>
    intro B i c h
    cases B with
    | nil => simp at h
    | cons b B2 =>
      cases i with
      | zero =>
        simp only [List.zipWith_cons_cons, List.get?_cons_zero, Option.some.injEq] at h
        exact ⟨a, b, rfl, rfl, h.symm⟩
      | succ j =>
        simp only [List.zipWith_cons_cons, List.get?_cons_succ] at h
        exact ih B2 j c h

/-- C2: for an alignment whose CIGAR (valid operation codes, lengths summing
over match/mismatch/deletion ops to the declared span `r_en - r_st`, query
coordinates staying below the uint32 modulus) the produced table has
length span + 1, every entry defined, and between consecutive entries
`v ≤ w` with `w = v + k + f`, where `k` is this reference position's own
advance (`1` on a match/mismatch position, `0` on a deletion position,
the entries of `posKinds`) and `f` is the total length of the insertions
falling between the two entries (the entries of `insFollows`): so the
table is non-decreasing, the delta is `1` across match/mismatch positions
and `0` across deletion positions, and exceeds `1` exactly when an
insertion (of that length) intervenes. -/
theorem C2_reference_to_query_invariants (q_st : Nat) (strand : Int)
    (r_st r_en : Nat) (cigar : List (Nat × Nat))
    (hval : opsValid (effCigar strand cigar))
    (hspan : refAdvance (effCigar strand cigar) = r_en - r_st)
    (hbound : q_st + qAdvance (effCigar strand cigar) < u32) :
    ∃ t : List (Option Nat),
      reference_to_query q_st strand r_st r_en cigar = .ok t
      ∧ t.length = (r_en - r_st) + 1
      ∧ (∀ i, i ≤ r_en - r_st → ∃ v, t.get? i = some (some v))
      ∧ (∀ i v w, t.get? i = some (some v) → t.get? (i + 1) = some (some w) →
          v ≤ w ∧ ∃ k f, (posKinds (effCigar strand cigar)).get? i = some k
            ∧ ((insFollows (effCigar strand cigar)).1).get? i = some f
            ∧ w = v + k + f) := by
  have hmod : (tableSpec q_st (effCigar strand cigar)).map (fun v => some (v % u32))
      = (tableSpec q_st (effCigar strand cigar)).map some := by
    apply List.map_congr_left
    intro v hv
    have hle := tableSpec_le _ hval q_st v hv
    have : v % u32 = v := Nat.mod_eq_of_lt (by omega)
    rw [this]
  have hTlen : (tableSpec q_st (effCigar strand cigar)).length = (r_en - r_st) + 1 := by
    unfold tableSpec
    rw [List.length_append, bodySpec_length _ hval, hspan]
    rfl
  refine ⟨(tableSpec q_st (effCigar strand cigar)).map some,
    by rw [reference_to_query_spec q_st strand r_st r_en cigar hval hspan, hmod], ?_, ?_, ?_⟩
  · rw [List.length_map, hTlen]
  · intro i hi
    obtain ⟨v, hv⟩ := get?_lt_length (tableSpec q_st (effCigar strand cigar)) i
      (by rw [hTlen]; omega)
    exact ⟨v, by rw [List.get?_map, hv]; rfl⟩
  · intro i v w hvm hwm
    have hv : (tableSpec q_st (effCigar strand cigar)).get? i = some v := by
      rw [List.get?_map] at hvm
      cases h : (tableSpec q_st (effCigar strand cigar)).get? i with
      | none => rw [h] at hvm; cases hvm
      | some u =>
        rw [h] at hvm
        simp only [Option.map_some', Option.some.injEq] at hvm
        rw [hvm]
    have hw : (tableSpec q_st (effCigar strand cigar)).get? (i + 1) = some w := by
      rw [List.get?_map] at hwm
      cases h : (tableSpec q_st (effCigar strand cigar)).get? (i + 1) with
      | none => rw [h] at hwm; cases hwm
      | some u =>
        rw [h] at hwm
        simp only [Option.map_some', Option.some.injEq] at hwm
        rw [hwm]
    have hle := chain'_le_get? _ (tableSpec_chain _ hval q_st) i v w hv hw
    refine ⟨hle, ?_⟩
    have hd := diffs_get? _ i v w hv hw
    rw [tableSpec_diffs _ hval q_st] at hd
    obtain ⟨k, f, hk, hf, hkf⟩ := zipWith_add_get? _ _ i (w - v) hd
    exact ⟨k, f, hk, hf, by omega⟩

/-- C2 witness: the theorem at a CIGAR `1M 2I 1D 1X` against reference
interval `[0, 3)` with query start `0` (table `[0, 3, 3, 4]`). -/
theorem C2_reference_to_query_invariants_witness :
    opsValid (effCigar 1 [(1, 0), (2, 1), (1, 2), (1, 8)])
    ∧ refAdvance (effCigar 1 [(1, 0), (2, 1), (1, 2), (1, 8)]) = 3 - 0
    ∧ 0 + qAdvance (effCigar 1 [(1, 0), (2, 1), (1, 2), (1, 8)]) < u32
    ∧ ∃ t : List (Option Nat),
      reference_to_query 0 1 0 3 [(1, 0), (2, 1), (1, 2), (1, 8)] = .ok t
      ∧ t.length = (3 - 0) + 1
      ∧ (∀ i, i ≤ 3 - 0 → ∃ v, t.get? i = some (some v))
      ∧ (∀ i v w, t.get? i = some (some v) → t.get? (i + 1) = some (some w) →
          v ≤ w ∧ ∃ k f, (posKinds (effCigar 1 [(1, 0), (2, 1), (1, 2), (1, 8)])).get? i = some k
            ∧ ((insFollows (effCigar 1 [(1, 0), (2, 1), (1, 2), (1, 8)])).1).get? i = some f
            ∧ w = v + k + f) :=
  ⟨by decide, by decide, by decide,
    C2_reference_to_query_invariants 0 1 0 3 [(1, 0), (2, 1), (1, 2), (1, 8)]
      (by decide) (by decide) (by decide)⟩

theorem opsValid_effCigar (strand : Int) (cigar : List (Nat × Nat)) :
    opsValid (effCigar strand cigar) ↔ opsValid cigar := by
  unfold effCigar
  by_cases h : strand = 1
  · rw [if_pos h]
  · rw [if_neg h]
    constructor
    · intro hv p hp
      exact hv p (List.mem_reverse.2 hp)
    · intro hv p hp
      exact hv p (List.mem_reverse.1 hp)

theorem r2qGo_error_kind :
    ∀ (c : List (Nat × Nat)), opsValid c →
      ∀ (rpos qpos : Nat) (a : List (Option Nat)) (e : R2QError),
        r2qGo c rpos qpos a = .error e → e = R2QError.indexError := by
  intro c
  induction c with
  | nil =>
    intro _ rpos qpos a e h
    cases h
  | cons p rest ih =>
    obtain ⟨l, op⟩ := p
    intro hval rpos qpos a e h
    have hvrest : opsValid rest := fun r hr => hval r (List.mem_cons_of_mem _ hr)
    have hop := hval (l, op) (List.mem_cons_self _ _)
    have hMcase : (op = 0 ∨ op = 7 ∨ op = 8) → e = R2QError.indexError := by
      intro hop2
      simp only [r2qGo, if_pos hop2] at h
      cases hw : writeRun a rpos qpos l with
      | ok a1 =>
        rw [hw] at h
        exact ih hvrest _ _ _ _ h
      | error e2 =>
        rw [hw] at h
        injection h with h2
        rw [← h2]
        exact writeRun_error_kind l a rpos qpos e2 hw
    rcases hop with hcode | hcode | hcode | hcode | hcode
    · exact hMcase (Or.inl hcode)
    · subst hcode
      simp only [r2qGo] at h
      rw [if_neg (by norm_num)] at h
      simp only [if_true] at h
      exact ih hvrest _ _ _ _ h
    · subst hcode
      simp only [r2qGo] at h
      rw [if_neg (by norm_num)] at h
      simp only [if_true] at h
      cases hw : writeDelRun a rpos qpos l with
      | ok a1 =>
        rw [hw] at h
        exact ih hvrest _ _ _ _ h
      | error e2 =>
        rw [hw] at h
        injection h with h2
        rw [← h2]
        exact writeDelRun_error_kind l a rpos qpos e2 hw
    · exact hMcase (Or.inr (Or.inl hcode))
    · exact hMcase (Or.inr (Or.inr hcode))

theorem r2qGo_invalid :
    ∀ (c : List (Nat × Nat)), ¬ opsValid c →
      ∀ (rpos qpos : Nat) (a : List (Option Nat)),
        ∃ e, r2qGo c rpos qpos a = .error e := by
  intro c
  induction c with
  | nil =>
    intro hnv
    exact absurd (fun p hp => absurd hp (List.not_mem_nil p)) hnv
  | cons p rest ih =>
    obtain ⟨l, op⟩ := p
    intro hnv rpos qpos a
    by_cases hcode : op = 0 ∨ op = 1 ∨ op = 2 ∨ op = 7 ∨ op = 8
    · have hnvrest : ¬ opsValid rest := by
        intro hvrest
        apply hnv
        intro r hr
        rcases List.mem_cons.1 hr with rfl | hr2
        · exact hcode
        · exact hvrest r hr2
      have hMcase : (op = 0 ∨ op = 7 ∨ op = 8) →
          ∃ e, r2qGo ((l, op) :: rest) rpos qpos a = .error e := by
        intro hop2
        simp only [r2qGo, if_pos hop2]
        cases hw : writeRun a rpos qpos l with
        | ok a1 => exact ih hnvrest _ _ _
        | error e2 => exact ⟨e2, rfl⟩
      rcases hcode with h | h | h | h | h
      · exact hMcase (Or.inl h)
      · subst h
        simp only [r2qGo]
        rw [if_neg (by norm_num)]
        simp only [if_true]
        exact ih hnvrest _ _ _
      · subst h
        simp only [r2qGo]
        rw [if_neg (by norm_num)]
        simp only [if_true]
        cases hw : writeDelRun a rpos qpos l with
        | ok a1 => exact ih hnvrest _ _ _
        | error e2 => exact ⟨e2, rfl⟩
      · exact hMcase (Or.inr (Or.inl h))
      · exact hMcase (Or.inr (Or.inr h))
    · refine ⟨R2QError.unsupportedOp, ?_⟩
      simp only [r2qGo]
      rw [if_neg (fun h => hcode (by tauto)), if_neg (fun h => hcode (by tauto)),
        if_neg (fun h => hcode (by tauto))]

/-- C8 counterexample: with the CIGAR `[(1, 0)]` — every operation code in
the supported set — against a declared span of `0` (`r_st = r_en = 0`),
`reference_to_query` still fails (the sentinel write at index 1 falls
outside the 1-slot table, numpy's `IndexError`), refuting the claim's
"raises no error when every operation code is in that set". -/
theorem C8_counterexample_valid_ops_error :
    opsValid [(1, 0)]
    ∧ reference_to_query 0 1 0 0 [(1, 0)] = .error R2QError.indexError := by
  constructor
  · decide
  · rfl

/-- C8 amended: `reference_to_query` raises `UnsupportedCigarOperation`
(the `TypeError`) ONLY when some operation code is outside
`{0, 7, 8, 1, 2}` — with all codes supported the only possible failure is
an out-of-bounds table write (`IndexError`), which can occur when the
CIGAR's span disagrees with `r_en - r_st`; and conversely a CIGAR
containing an unsupported code never returns a table: it fails, with
`UnsupportedCigarOperation` when the scan reaches the unsupported
operation first, or `IndexError` when an out-of-bounds write precedes
it. -/
theorem C8_amended_error_behaviour (q_st : Nat) (strand : Int)
    (r_st r_en : Nat) (cigar : List (Nat × Nat)) :
    (reference_to_query q_st strand r_st r_en cigar = .error R2QError.unsupportedOp →
      ¬ opsValid cigar)
    ∧ (¬ opsValid cigar →
        reference_to_query q_st strand r_st r_en cigar = .error R2QError.unsupportedOp
        ∨ reference_to_query q_st strand r_st r_en cigar = .error R2QError.indexError) := by
  constructor
  · intro h hval
    have hveff : opsValid (effCigar strand cigar) :=
      (opsValid_effCigar strand cigar).2 hval
    simp only [reference_to_query] at h
    cases hg : r2qGo (effCigar strand cigar) 0 q_st
        (List.replicate (r_en - r_st + 1) none) with
    | ok res =>
      obtain ⟨rpos, qpos, a⟩ := res
      rw [hg] at h
      have := setAt_error_kind a rpos qpos _ h
      cases this
    | error e =>
      rw [hg] at h
      injection h with h2
      have := r2qGo_error_kind _ hveff _ _ _ e hg
      rw [this] at h2
      cases h2
  · intro hnv
    have hnveff : ¬ opsValid (effCigar strand cigar) :=
      fun hv => hnv ((opsValid_effCigar strand cigar).1 hv)
    obtain ⟨e, he⟩ := r2qGo_invalid _ hnveff 0 q_st
      (List.replicate (r_en - r_st + 1) none)
    cases e with
    | unsupportedOp =>
      left
      simp only [reference_to_query]
      rw [he]
    | indexError =>
      right
      simp only [reference_to_query]
      rw [he]

/-- C8 amended witness: CIGAR `[(1, 9)]` contains the unsupported code
`9`, and the call fails with one of the two error kinds (here
`UnsupportedCigarOperation`). -/
theorem C8_amended_error_behaviour_witness :
    ¬ opsValid [(1, 9)]
    ∧ (reference_to_query 0 1 0 1 [(1, 9)] = .error R2QError.unsupportedOp
      ∨ reference_to_query 0 1 0 1 [(1, 9)] = .error R2QError.indexError) :=
  ⟨by decide, (C8_amended_error_behaviour 0 1 0 1 [(1, 9)]).2 (by decide)⟩
